import Mathlib

/-!
# httpcache: the size-bounded LRU cache of `httpcache.go`

A shallow embedding of the `Cache` type of `src/httpcache.go`, of its methods
`Add`, `Get`, `Remove`, `RemoveOldest`, `removeElement`, `Len`, `Size`, of the
loop of the `WIPE` handler and of the `GET` and `PUT` handlers.

Modelling decisions.

* Go pointers `*list.Element` are addresses (`Nat`) into `Cache.heap`, the
  list of every element ever allocated by `PushFront`; the address of an
  element is its index in the heap.  The heap is never shrunk: an element
  unlinked from the recency list stays allocated, as it does in Go for as long
  as somebody holds a pointer to it.
* `container/list.List` is the list of the addresses of its elements, front
  first.  `MoveToFront` and `Remove` do nothing on an element that is not in
  the list, as in the Go library.
* The Go map `map[interface{}]*list.Element` is an association list from keys
  to addresses.  Keys are strings, the only key type the program uses.
* Go `int` is 64 bits wide.  `removeElement`, `evictLoop`, `addEntry` and the
  operations built on them compute the counter in `Int` without wrap-around;
  `removeElement64`, `evictLoop64`, `addEntry64` and the operations built on
  them compute it as the machine does, modulo `2^64` (`wrap64`).  The two agree
  as long as no sum or difference leaves the 64-bit range (`Add64_eq_Add`,
  `run64_eq_run`).
* The two `for` loops take a fuel argument: `none` means that the loop was
  still running when the fuel ran out.  Logging and `runtime.GC()` have no
  effect on the cache and are left out.
* An `http.ResponseWriter` is the status code, once the header is written, and
  the body written so far; the key and the outcome of reading the request body
  are arguments of the handlers.
-/

namespace HttpCache

/-! ## Data model -/

/-- Keys of the cache (`type Key interface{}`); the program only uses strings. -/
abbrev Key := String

/-- Values of the cache (`[]byte`). -/
abbrev Bytes := List (Fin 256)

/-- The payload of a list element: `type entry struct { Key Key; Value *[]byte }`. -/
structure entry where
  Key : HttpCache.Key
  Value : Bytes
deriving DecidableEq

/-- The `Cache` struct.  `heap` holds the allocated list elements, `lru` the
addresses of the elements linked in the recency list (front first), `cache`
the lookup map from keys to element addresses. -/
structure Cache where
  maxSize : Int
  curSize : Int
  heap : List entry
  lru : List Nat
  cache : List (Key × Nat)
deriving DecidableEq

/-- The entry stored in the element at address `a` (`ele.Value.(*entry)`). -/
def deref (heap : List entry) (a : Nat) : entry :=
  heap.getD a ⟨"", []⟩

/-! ## The Go map -/

/-- Lookup `m[k]` with the comma-ok result. -/
def mapLookup : List (Key × Nat) → Key → Option Nat
  | [], _ => none
  | (k', a) :: rest, k => if k' = k then some a else mapLookup rest k

/-- The builtin `delete(m, k)`. -/
def mapDelete (m : List (Key × Nat)) (k : Key) : List (Key × Nat) :=
  m.filter (fun p => decide (p.1 ≠ k))

/-- The assignment `m[k] = a`. -/
def mapInsert (m : List (Key × Nat)) (k : Key) (a : Nat) : List (Key × Nat) :=
  (k, a) :: mapDelete m k

/-! ## container/list -/

/-- `l.MoveToFront(e)`: no effect when `e` is not an element of `l`. -/
def MoveToFront (l : List Nat) (e : Nat) : List Nat :=
  if e ∈ l then e :: l.erase e else l

/-! ## The cache operations -/

/-- `func NewCache(maxSize int) *Cache`. -/
def NewCache (maxSize : Int) : Cache :=
  { maxSize := maxSize, curSize := 0, heap := [], lru := [], cache := [] }

/-- `func (c *Cache) Len() int`. -/
def Len (c : Cache) : Nat := c.lru.length

/-- `func (c *Cache) Size() int`. -/
def Size (c : Cache) : Int := c.curSize

/-- `func (c *Cache) removeElement(ele *list.Element)`, the counter in `Int` without
wrap-around (`removeElement64` wraps). -/
def removeElement (c : Cache) (ele : Nat) : Cache :=
  { c with
    curSize := c.curSize - ((deref c.heap ele).Value.length : Int)
    lru := c.lru.erase ele
    cache := mapDelete c.cache (deref c.heap ele).Key }

/-- `func (c *Cache) RemoveOldest()`: `c.lru.Back()` is the last element. -/
def RemoveOldest (c : Cache) : Cache :=
  match c.lru.getLast? with
  | some ele => removeElement c ele
  | none => c

/-- `func (c *Cache) Remove(key Key)`. -/
def Remove (c : Cache) (key : Key) : Cache :=
  match mapLookup c.cache key with
  | some ele => removeElement c ele
  | none => c

/-- `func (c *Cache) Get(key Key) (*[]byte, error)`: the cache after the call
and the returned value or error. -/
def Get (c : Cache) (key : Key) : Cache × Except String Bytes :=
  match mapLookup c.cache key with
  | some ele =>
      ({ c with lru := MoveToFront c.lru ele }, Except.ok (deref c.heap ele).Value)
  | none => (c, Except.error "Key not found")

/-- The eviction loop of `Add`,
`for (c.curSize + len(*value)) > c.maxSize { c.RemoveOldest() }`, the sum in `Int` without
wrap-around (`evictLoop64` wraps).
Returns the cache at loop exit and the number of calls of `RemoveOldest`. -/
def evictLoop : Nat → Cache → Bytes → Option (Cache × Nat)
  | 0, c, value =>
      if c.curSize + (value.length : Int) > c.maxSize then none else some (c, 0)
  | fuel + 1, c, value =>
      if c.curSize + (value.length : Int) > c.maxSize then
        (evictLoop fuel (RemoveOldest c) value).map (fun r => (r.1, r.2 + 1))
      else some (c, 0)

/-- The part of `Add` after the eviction loop, the sums in `Int` without wrap-around
(`addEntry64` wraps). -/
def addEntry (c : Cache) (key : Key) (value : Bytes) : Cache :=
  match mapLookup c.cache key with
  | some ele =>
      { c with
        curSize := c.curSize + (value.length : Int)
        lru := MoveToFront c.lru ele
        heap := c.heap.set ele { Key := (deref c.heap ele).Key, Value := value } }
  | none =>
      { c with
        heap := c.heap ++ [{ Key := key, Value := value }]
        lru := c.heap.length :: c.lru
        cache := mapInsert c.cache key c.heap.length
        curSize := c.curSize + (value.length : Int) }

/-- `func (c *Cache) Add(key Key, value *[]byte)`. -/
def Add (fuel : Nat) (c : Cache) (key : Key) (value : Bytes) : Option Cache :=
  (evictLoop fuel c value).map (fun r => addEntry r.1 key value)

/-- The loop of the `WIPE` handler, `for c.Len() > 0 { c.RemoveOldest() }`. -/
def WIPE : Nat → Cache → Option Cache
  | 0, c => if Len c > 0 then none else some c
  | fuel + 1, c => if Len c > 0 then WIPE fuel (RemoveOldest c) else some c

/-! ## Operation sequences -/

/-- The operations of the cache. -/
inductive Op where
  | add (key : Key) (value : Bytes)
  | get (key : Key)
  | remove (key : Key)
  | removeOldest
  | wipe
deriving DecidableEq

/-- One operation; `none` when its loop does not finish within `fuel` rounds. -/
def step (fuel : Nat) (c : Cache) : Op → Option Cache
  | Op.add key value => Add fuel c key value
  | Op.get key => some (Get c key).1
  | Op.remove key => some (Remove c key)
  | Op.removeOldest => some (RemoveOldest c)
  | Op.wipe => WIPE fuel c

/-- A sequence of operations, each with `fuel` rounds for its loop. -/
def run (fuel : Nat) (c : Cache) : List Op → Option Cache
  | [] => some c
  | op :: ops => (step fuel c op).bind (fun c1 => run fuel c1 ops)

/-- The states the cache can be in after a sequence of operations that all
returned, starting from `NewCache maxSize`. -/
def Reachable (maxSize : Int) (c : Cache) : Prop :=
  ∃ fuel ops, run fuel (NewCache maxSize) ops = some c

/-- The entries currently stored, in recency order. -/
def entries (c : Cache) : List entry := c.lru.map (deref c.heap)

/-- The sum of `len(value)` over the entries currently stored. -/
def entriesSize (c : Cache) : Int :=
  (c.lru.map (fun a => ((deref c.heap a).Value.length : Int))).sum

/-- The keys of the lookup map. -/
def mapKeys (c : Cache) : List Key := c.cache.map Prod.fst

/-- The keys of the entries in the recency list, front first. -/
def listKeys (c : Cache) : List Key := c.lru.map (fun a => (deref c.heap a).Key)

/-- A value of `n` bytes. -/
def bytes (n : Nat) : Bytes := List.replicate n 0

/-- The structural invariant tying the lookup map to the recency list. -/
structure WF (c : Cache) : Prop where
  lru_nodup : c.lru.Nodup
  lru_lt : ∀ a ∈ c.lru, a < c.heap.length
  keys_nodup : (c.cache.map Prod.fst).Nodup
  map_sound : ∀ k a, (k, a) ∈ c.cache → a ∈ c.lru ∧ (deref c.heap a).Key = k
  map_complete : ∀ a ∈ c.lru, ((deref c.heap a).Key, a) ∈ c.cache

/-- The counter is never below the stored bytes. -/
def Lower (c : Cache) : Prop := entriesSize c ≤ c.curSize

/-- The sum of `len(value)` over the last `j` entries of the recency list. -/
def tailSize (c : Cache) (j : Nat) : Int :=
  (((entries c).rtake j).map (fun e => (e.Value.length : Int))).sum

/-- Whether `Add` finds `key` in the map once its eviction loop is over. -/
def addFinds (fuel : Nat) (c : Cache) (key : Key) (value : Bytes) : Bool :=
  match evictLoop fuel c value with
  | some r => (mapLookup r.1.cache key).isSome
  | none => false

/-- Whether the operation is not an `Add` that finds its key still present after its
eviction loop. -/
def addsFresh (fuel : Nat) (c : Cache) : Op → Bool
  | Op.add key value => !addFinds fuel c key value
  | _ => true

/-- A sequence of operations in which no `Add` finds its key still present after its
eviction loop. -/
def noReadd (fuel : Nat) : Cache → List Op → Bool
  | _, [] => true
  | c, op :: ops =>
      addsFresh fuel c op &&
      (match step fuel c op with
       | some c1 => noReadd fuel c1 ops
       | none => true)

/-- The store in which "a" holds one byte, under the largest budget `2^63 - 1`, with the
counter at `k`: what `k` calls of `Add("a", 1 byte)` leave of `NewCache(2^63 - 1)`. -/
def readdStore (k : Int) : Cache :=
  { maxSize := 9223372036854775807, curSize := k, heap := [{ Key := "a", Value := bytes 1 }],
    lru := [0], cache := [("a", 0)] }

/-! ## The counter as a 64-bit `int` -/

/-- The value of a Go `int` expression whose mathematical value is `x`: signed 64-bit
wrap-around. -/
def wrap64 (x : Int) : Int :=
  (x + 9223372036854775808) % 18446744073709551616 - 9223372036854775808

/-- `func (c *Cache) removeElement(ele *list.Element)`, the subtraction in 64 bits. -/
def removeElement64 (c : Cache) (ele : Nat) : Cache :=
  { c with
    curSize := wrap64 (c.curSize - ((deref c.heap ele).Value.length : Int))
    lru := c.lru.erase ele
    cache := mapDelete c.cache (deref c.heap ele).Key }

/-- `func (c *Cache) RemoveOldest()`, in 64 bits. -/
def RemoveOldest64 (c : Cache) : Cache :=
  match c.lru.getLast? with
  | some ele => removeElement64 c ele
  | none => c

/-- `func (c *Cache) Remove(key Key)`, in 64 bits. -/
def Remove64 (c : Cache) (key : Key) : Cache :=
  match mapLookup c.cache key with
  | some ele => removeElement64 c ele
  | none => c

/-- The eviction loop of `Add`,
`for (c.curSize + len(*value)) > c.maxSize { c.RemoveOldest() }`, the sum in 64 bits.
Returns the cache at loop exit and the number of calls of `RemoveOldest`. -/
def evictLoop64 : Nat → Cache → Bytes → Option (Cache × Nat)
  | 0, c, value =>
      if wrap64 (c.curSize + (value.length : Int)) > c.maxSize then none else some (c, 0)
  | fuel + 1, c, value =>
      if wrap64 (c.curSize + (value.length : Int)) > c.maxSize then
        (evictLoop64 fuel (RemoveOldest64 c) value).map (fun r => (r.1, r.2 + 1))
      else some (c, 0)

/-- The part of `Add` after the eviction loop, the sums in 64 bits. -/
def addEntry64 (c : Cache) (key : Key) (value : Bytes) : Cache :=
  match mapLookup c.cache key with
  | some ele =>
      { c with
        curSize := wrap64 (c.curSize + (value.length : Int))
        lru := MoveToFront c.lru ele
        heap := c.heap.set ele { Key := (deref c.heap ele).Key, Value := value } }
  | none =>
      { c with
        heap := c.heap ++ [{ Key := key, Value := value }]
        lru := c.heap.length :: c.lru
        cache := mapInsert c.cache key c.heap.length
        curSize := wrap64 (c.curSize + (value.length : Int)) }

/-- `func (c *Cache) Add(key Key, value *[]byte)`, in 64 bits. -/
def Add64 (fuel : Nat) (c : Cache) (key : Key) (value : Bytes) : Option Cache :=
  (evictLoop64 fuel c value).map (fun r => addEntry64 r.1 key value)

/-- The loop of the `WIPE` handler, in 64 bits. -/
def WIPE64 : Nat → Cache → Option Cache
  | 0, c => if Len c > 0 then none else some c
  | fuel + 1, c => if Len c > 0 then WIPE64 fuel (RemoveOldest64 c) else some c

/-- One operation in 64 bits; `none` when its loop does not finish within `fuel` rounds. -/
def step64 (fuel : Nat) (c : Cache) : Op → Option Cache
  | Op.add key value => Add64 fuel c key value
  | Op.get key => some (Get c key).1
  | Op.remove key => some (Remove64 c key)
  | Op.removeOldest => some (RemoveOldest64 c)
  | Op.wipe => WIPE64 fuel c

/-- A sequence of operations in 64 bits. -/
def run64 (fuel : Nat) (c : Cache) : List Op → Option Cache
  | [] => some c
  | op :: ops => (step64 fuel c op).bind (fun c1 => run64 fuel c1 ops)

/-- Whether `Add`, in 64 bits, finds `key` in the map once its eviction loop is over. -/
def addFinds64 (fuel : Nat) (c : Cache) (key : Key) (value : Bytes) : Bool :=
  match evictLoop64 fuel c value with
  | some r => (mapLookup r.1.cache key).isSome
  | none => false

/-- Whether the operation is not an `Add` that finds its key still present after its
eviction loop, in 64 bits. -/
def addsFresh64 (fuel : Nat) (c : Cache) : Op → Bool
  | Op.add key value => !addFinds64 fuel c key value
  | _ => true

/-- A sequence of operations, in 64 bits, in which no `Add` finds its key still present
after its eviction loop. -/
def noReadd64 (fuel : Nat) : Cache → List Op → Bool
  | _, [] => true
  | c, op :: ops =>
      addsFresh64 fuel c op &&
      (match step64 fuel c op with
       | some c1 => noReadd64 fuel c1 ops
       | none => true)

/-- Whether the operation is not an `Add` called with `Size() + len(value)` above the
largest `int`, `2^63 - 1`. -/
def addInRange (c : Cache) : Op → Bool
  | Op.add _ value => decide (c.curSize + (value.length : Int) < 9223372036854775808)
  | _ => true

/-- A sequence of operations, in 64 bits, in which every `Add` is called with
`Size() + len(value)` at most the largest `int`. -/
def noOverflow (fuel : Nat) : Cache → List Op → Bool
  | _, [] => true
  | c, op :: ops =>
      addInRange c op &&
      (match step64 fuel c op with
       | some c1 => noOverflow fuel c1 ops
       | none => true)

/-! ## The HTTP handlers -/

/-- The state of an `http.ResponseWriter`: the status code once the header is written, and
the body written so far. -/
structure ResponseWriter where
  status : Option Nat
  body : Bytes
deriving DecidableEq

/-- The writer a handler is given: nothing written yet. -/
def newResponse : ResponseWriter := { status := none, body := [] }

/-- `http.StatusInternalServerError`. -/
def StatusInternalServerError : Nat := 500

/-- `http.StatusOK`. -/
def StatusOK : Nat := 200

/-- `w.WriteHeader(code)`: a second call on the same writer is ignored. -/
def WriteHeader (w : ResponseWriter) (code : Nat) : ResponseWriter :=
  match w.status with
  | none => { w with status := some code }
  | some _ => w

/-- `w.Write(data)`: writes the header with `http.StatusOK` first when no header was
written yet. -/
def Write (w : ResponseWriter) (data : Bytes) : ResponseWriter :=
  { status := some (w.status.getD StatusOK), body := w.body ++ data }

/-- The status the client receives: `http.StatusOK` when the handler wrote no header. -/
def responseStatus (w : ResponseWriter) : Nat := w.status.getD StatusOK

/-- `func (c *Cache) GET(w http.ResponseWriter, r *http.Request, ps httprouter.Params)`,
with `key` the value of `ps.ByName("key")`. -/
def GET (c : Cache) (w : ResponseWriter) (key : Key) : Cache × ResponseWriter :=
  match Get c key with
  | (c1, Except.error _) => (c1, WriteHeader w StatusInternalServerError)
  | (c1, Except.ok data) => (c1, Write w data)

/-- `func (c *Cache) PUT(w http.ResponseWriter, r *http.Request, ps httprouter.Params)`,
with `key` the value of `ps.ByName("key")` and `(data, readErr)` the result of
`ioutil.ReadAll(r.Body)`: the bytes read, and whether the read ended in an error.  The
result is the cache and the writer when the handler returns, `none` when `c.Add` does not
return: the handler then does not return either and no response is sent. -/
def PUT (fuel : Nat) (c : Cache) (w : ResponseWriter) (key : Key) (data : Bytes)
    (readErr : Bool) : Option (Cache × ResponseWriter) :=
  let w1 := if readErr then WriteHeader w StatusInternalServerError else w
  (Add64 fuel c key data).map (fun c1 => (c1, w1))

/-! ## The map and the list -/

theorem mapLookup_some_mem {m : List (Key × Nat)} {k : Key} {a : Nat}
    (h : mapLookup m k = some a) : (k, a) ∈ m := by
  induction m with
  | nil => simp [mapLookup] at h
  | cons p rest ih =>
    obtain ⟨k1, a1⟩ := p
    by_cases hk : k1 = k
    · subst hk
      simp [mapLookup] at h
      simp [h]
    · simp [mapLookup, hk] at h
      exact List.mem_cons_of_mem _ (ih h)

theorem mapLookup_none_iff {m : List (Key × Nat)} {k : Key} :
    mapLookup m k = none ↔ k ∉ m.map Prod.fst := by
  induction m with
  | nil => simp [mapLookup]
  | cons p rest ih =>
    obtain ⟨k1, a1⟩ := p
    by_cases hk : k1 = k
    · subst hk
      simp [mapLookup]
    · have hk2 : ¬ k = k1 := fun h => hk h.symm
      simp [mapLookup, hk, hk2, ih]

theorem mapLookup_of_mem {m : List (Key × Nat)} {k : Key} {a : Nat}
    (hnd : (m.map Prod.fst).Nodup) (h : (k, a) ∈ m) : mapLookup m k = some a := by
  induction m with
  | nil => simp at h
  | cons p rest ih =>
    obtain ⟨k1, a1⟩ := p
    simp only [List.map_cons, List.nodup_cons] at hnd
    rcases List.mem_cons.mp h with heq | hmem
    · cases heq
      simp [mapLookup]
    · have hk : k1 ≠ k := by
        intro hk
        subst hk
        exact hnd.1 (List.mem_map_of_mem Prod.fst hmem)
      simp [mapLookup, hk, ih hnd.2 hmem]

theorem map_functional {m : List (Key × Nat)} {k : Key} {a b : Nat}
    (hnd : (m.map Prod.fst).Nodup) (ha : (k, a) ∈ m) (hb : (k, b) ∈ m) : a = b := by
  have h1 := mapLookup_of_mem hnd ha
  have h2 := mapLookup_of_mem hnd hb
  rw [h1] at h2
  exact Option.some.inj h2

theorem mem_mapDelete {m : List (Key × Nat)} {k k1 : Key} {a : Nat} :
    (k1, a) ∈ mapDelete m k ↔ (k1, a) ∈ m ∧ k1 ≠ k := by
  simp [mapDelete]

theorem mapDelete_keys_nodup {m : List (Key × Nat)} (k : Key)
    (hnd : (m.map Prod.fst).Nodup) : ((mapDelete m k).map Prod.fst).Nodup :=
  hnd.sublist ((List.filter_sublist m).map Prod.fst)

theorem mapDelete_of_not_mem {m : List (Key × Nat)} {k : Key}
    (h : k ∉ m.map Prod.fst) : mapDelete m k = m := by
  unfold mapDelete
  rw [List.filter_eq_self]
  intro p hp
  have : p.1 ≠ k := by
    intro hk
    exact h (hk ▸ List.mem_map_of_mem Prod.fst hp)
  simpa using this

theorem mem_MoveToFront {l : List Nat} {e x : Nat} : x ∈ MoveToFront l e ↔ x ∈ l := by
  unfold MoveToFront
  split
  · rename_i he
    by_cases hx : x = e
    · subst hx
      simp [he]
    · simp [hx, List.mem_erase_of_ne hx]
  · rfl

theorem nodup_MoveToFront {l : List Nat} (e : Nat) (h : l.Nodup) : (MoveToFront l e).Nodup := by
  unfold MoveToFront
  split
  · exact List.nodup_cons.mpr ⟨h.not_mem_erase, h.erase e⟩
  · exact h

theorem length_MoveToFront (l : List Nat) (e : Nat) : (MoveToFront l e).length = l.length := by
  unfold MoveToFront
  split
  · rename_i he
    have := List.length_pos_of_mem he
    simp [List.length_erase_of_mem he]
    omega
  · rfl

/-! ## The heap -/

theorem deref_set_ne (h : List entry) {a b : Nat} (e : entry) (hne : b ≠ a) :
    deref (h.set a e) b = deref h b := by
  unfold deref
  simp [List.getD_eq_getElem?_getD, List.getElem?_set_ne (Ne.symm hne)]

theorem deref_set_eq (h : List entry) {a : Nat} (e : entry) (ha : a < h.length) :
    deref (h.set a e) a = e := by
  unfold deref
  simp [List.getD_eq_getElem?_getD, ha]

theorem deref_append_lt (h : List entry) {b : Nat} (e : entry) (hb : b < h.length) :
    deref (h ++ [e]) b = deref h b := by
  unfold deref
  simp [List.getD_eq_getElem?_getD, List.getElem?_append_left hb]

theorem deref_append_length (h : List entry) (e : entry) :
    deref (h ++ [e]) h.length = e := by
  unfold deref
  simp [List.getD_eq_getElem?_getD]

theorem deref_set_key (h : List entry) (a b : Nat) (v : Bytes) :
    (deref (h.set a { Key := (deref h a).Key, Value := v }) b).Key = (deref h b).Key := by
  by_cases hb : b = a
  · subst hb
    by_cases hlt : b < h.length
    · rw [deref_set_eq h _ hlt]
    · rw [List.set_eq_of_length_le (Nat.le_of_not_lt hlt)]
  · rw [deref_set_ne h _ hb]

/-! ## The structural invariant is kept by every operation -/

theorem WF_NewCache (maxSize : Int) : WF (NewCache maxSize) := by
  constructor <;> simp [NewCache]

theorem WF_removeElement {c : Cache} (h : WF c) {ele : Nat} (hele : ele ∈ c.lru) :
    WF (removeElement c ele) := by
  have hpair := h.map_complete ele hele
  constructor
  · exact h.lru_nodup.erase ele
  · intro a ha
    exact h.lru_lt a (List.mem_of_mem_erase ha)
  · exact mapDelete_keys_nodup _ h.keys_nodup
  · intro k a hka
    obtain ⟨hmem, hne⟩ := mem_mapDelete.mp hka
    obtain ⟨hin, hkey⟩ := h.map_sound k a hmem
    refine ⟨?_, hkey⟩
    have hane : a ≠ ele := by
      intro heq
      subst heq
      exact hne hkey.symm
    exact (List.mem_erase_of_ne hane).mpr hin
  · intro a ha
    have hin : a ∈ c.lru := List.mem_of_mem_erase ha
    have hane : a ≠ ele := by
      intro heq
      subst heq
      exact h.lru_nodup.not_mem_erase ha
    refine mem_mapDelete.mpr ⟨h.map_complete a hin, ?_⟩
    intro hk
    have hk2 : (deref c.heap a).Key = (deref c.heap ele).Key := hk
    have h1 := h.map_complete a hin
    rw [hk2] at h1
    exact hane (map_functional h.keys_nodup h1 hpair)

theorem WF_RemoveOldest {c : Cache} (h : WF c) : WF (RemoveOldest c) := by
  unfold RemoveOldest
  split
  · rename_i ele hlast
    exact WF_removeElement h (List.mem_of_getLast?_eq_some hlast)
  · exact h

theorem WF_Remove {c : Cache} (h : WF c) (key : Key) : WF (Remove c key) := by
  unfold Remove
  split
  · rename_i ele hlook
    exact WF_removeElement h (h.map_sound _ _ (mapLookup_some_mem hlook)).1
  · exact h

theorem WF_Get {c : Cache} (h : WF c) (key : Key) : WF (Get c key).1 := by
  unfold Get
  split
  · rename_i ele hlook
    constructor
    · exact nodup_MoveToFront ele h.lru_nodup
    · intro a ha
      exact h.lru_lt a (mem_MoveToFront.mp ha)
    · exact h.keys_nodup
    · intro k a hka
      obtain ⟨hin, hkey⟩ := h.map_sound k a hka
      exact ⟨mem_MoveToFront.mpr hin, hkey⟩
    · intro a ha
      exact h.map_complete a (mem_MoveToFront.mp ha)
  · exact h

theorem WF_addEntry {c : Cache} (h : WF c) (key : Key) (value : Bytes) :
    WF (addEntry c key value) := by
  unfold addEntry
  split
  · rename_i ele hlook
    constructor
    · exact nodup_MoveToFront ele h.lru_nodup
    · intro a ha
      simpa using h.lru_lt a (mem_MoveToFront.mp ha)
    · exact h.keys_nodup
    · intro k a hka
      obtain ⟨hin, hkey⟩ := h.map_sound k a hka
      refine ⟨mem_MoveToFront.mpr hin, ?_⟩
      show (deref (c.heap.set ele _) a).Key = k
      rw [deref_set_key]
      exact hkey
    · intro a ha
      show ((deref (c.heap.set ele _) a).Key, a) ∈ c.cache
      rw [deref_set_key]
      exact h.map_complete a (mem_MoveToFront.mp ha)
  · rename_i hlook
    have hnot : key ∉ c.cache.map Prod.fst := mapLookup_none_iff.mp hlook
    have hfresh : c.heap.length ∉ c.lru := fun hin => Nat.lt_irrefl _ (h.lru_lt _ hin)
    constructor
    · exact List.nodup_cons.mpr ⟨hfresh, h.lru_nodup⟩
    · intro a ha
      rcases List.mem_cons.mp ha with heq | hin
      · simp [heq]
      · have := h.lru_lt a hin
        simp
        omega
    · show ((mapInsert c.cache key c.heap.length).map Prod.fst).Nodup
      unfold mapInsert
      rw [mapDelete_of_not_mem hnot]
      exact List.nodup_cons.mpr ⟨hnot, h.keys_nodup⟩
    · intro k a hka
      have hka2 : (k, a) ∈ mapInsert c.cache key c.heap.length := hka
      unfold mapInsert at hka2
      rw [mapDelete_of_not_mem hnot] at hka2
      rcases List.mem_cons.mp hka2 with heq | hin
      · cases heq
        exact ⟨List.mem_cons_self _ _, by
          show (deref (c.heap ++ [_]) c.heap.length).Key = key
          rw [deref_append_length]⟩
      · obtain ⟨hl, hkey⟩ := h.map_sound k a hin
        refine ⟨List.mem_cons_of_mem _ hl, ?_⟩
        show (deref (c.heap ++ [_]) a).Key = k
        rw [deref_append_lt _ _ (h.lru_lt a hl)]
        exact hkey
    · intro a ha
      show ((deref (c.heap ++ [_]) a).Key, a) ∈ mapInsert c.cache key c.heap.length
      unfold mapInsert
      rw [mapDelete_of_not_mem hnot]
      rcases List.mem_cons.mp ha with heq | hin
      · subst heq
        rw [deref_append_length]
        exact List.mem_cons_self _ _
      · rw [deref_append_lt _ _ (h.lru_lt a hin)]
        exact List.mem_cons_of_mem _ (h.map_complete a hin)

/-! ## The loops -/

/-- Whatever `RemoveOldest` keeps, the eviction loop keeps. -/
theorem evictLoop_keeps (P : Cache → Prop) (hstep : ∀ c, P c → P (RemoveOldest c))
    {fuel : Nat} {c : Cache} {value : Bytes} {r : Cache × Nat}
    (hc : P c) (hr : evictLoop fuel c value = some r) : P r.1 := by
  induction fuel generalizing c r with
  | zero =>
    simp only [evictLoop] at hr
    split at hr
    · cases hr
    · cases hr
      exact hc
  | succ f ih =>
    simp only [evictLoop] at hr
    split at hr
    · rw [Option.map_eq_some'] at hr
      obtain ⟨r0, hr0, rfl⟩ := hr
      exact ih (r := r0) (hstep c hc) hr0
    · cases hr
      exact hc

/-- At loop exit the new value fits. -/
theorem evictLoop_exit {fuel : Nat} {c : Cache} {value : Bytes} {r : Cache × Nat}
    (hr : evictLoop fuel c value = some r) :
    r.1.curSize + (value.length : Int) ≤ r.1.maxSize := by
  induction fuel generalizing c r with
  | zero =>
    simp only [evictLoop] at hr
    split at hr
    · cases hr
    · rename_i hle
      cases hr
      exact Int.not_lt.mp hle
  | succ f ih =>
    simp only [evictLoop] at hr
    split at hr
    · rw [Option.map_eq_some'] at hr
      obtain ⟨r0, hr0, rfl⟩ := hr
      exact ih (r := r0) hr0
    · rename_i hle
      cases hr
      exact Int.not_lt.mp hle

/-- Whatever `RemoveOldest` keeps, the loop of `WIPE` keeps. -/
theorem WIPE_keeps (P : Cache → Prop) (hstep : ∀ c, P c → P (RemoveOldest c))
    {fuel : Nat} {c c1 : Cache} (hc : P c) (hr : WIPE fuel c = some c1) : P c1 := by
  induction fuel generalizing c with
  | zero =>
    simp only [WIPE] at hr
    split at hr
    · cases hr
    · cases hr
      exact hc
  | succ f ih =>
    simp only [WIPE] at hr
    split at hr
    · exact ih (hstep c hc) hr
    · cases hr
      exact hc

theorem RemoveOldest_maxSize (c : Cache) : (RemoveOldest c).maxSize = c.maxSize := by
  unfold RemoveOldest
  split <;> rfl

theorem addEntry_maxSize (c : Cache) (key : Key) (value : Bytes) :
    (addEntry c key value).maxSize = c.maxSize := by
  unfold addEntry
  split <;> rfl

theorem addEntry_curSize (c : Cache) (key : Key) (value : Bytes) :
    (addEntry c key value).curSize = c.curSize + (value.length : Int) := by
  unfold addEntry
  split <;> rfl

theorem Add_maxSize {fuel : Nat} {c c1 : Cache} {key : Key} {value : Bytes}
    (h : Add fuel c key value = some c1) : c1.maxSize = c.maxSize := by
  unfold Add at h
  rw [Option.map_eq_some'] at h
  obtain ⟨r, hr, rfl⟩ := h
  rw [addEntry_maxSize]
  exact evictLoop_keeps (fun x => x.maxSize = c.maxSize)
    (fun x hx => (RemoveOldest_maxSize x).trans hx) rfl hr

/-- An `Add` that returns leaves the counter within the budget. -/
theorem Add_within_budget {fuel : Nat} {c c1 : Cache} {key : Key} {value : Bytes}
    (h : Add fuel c key value = some c1) : c1.curSize ≤ c1.maxSize := by
  unfold Add at h
  rw [Option.map_eq_some'] at h
  obtain ⟨r, hr, rfl⟩ := h
  rw [addEntry_maxSize, addEntry_curSize]
  exact evictLoop_exit hr

theorem WF_Add {fuel : Nat} {c c1 : Cache} {key : Key} {value : Bytes}
    (hwf : WF c) (h : Add fuel c key value = some c1) : WF c1 := by
  unfold Add at h
  rw [Option.map_eq_some'] at h
  obtain ⟨r, hr, rfl⟩ := h
  exact WF_addEntry (evictLoop_keeps WF (fun _ hx => WF_RemoveOldest hx) hwf hr) key value

theorem WF_step {fuel : Nat} {c c1 : Cache} {op : Op}
    (hwf : WF c) (h : step fuel c op = some c1) : WF c1 := by
  cases op with
  | add key value => exact WF_Add hwf h
  | get key =>
    simp only [step, Option.some.injEq] at h
    exact h ▸ WF_Get hwf key
  | remove key =>
    simp only [step, Option.some.injEq] at h
    exact h ▸ WF_Remove hwf key
  | removeOldest =>
    simp only [step, Option.some.injEq] at h
    exact h ▸ WF_RemoveOldest hwf
  | wipe => exact WIPE_keeps WF (fun _ hx => WF_RemoveOldest hx) hwf h

/-- Whatever every returning operation keeps holds after a run. -/
theorem run_keeps (P : Cache → Prop)
    (hstep : ∀ fuel c c1 op, P c → step fuel c op = some c1 → P c1)
    {fuel : Nat} {c c1 : Cache} {ops : List Op}
    (hc : P c) (h : run fuel c ops = some c1) : P c1 := by
  induction ops generalizing c with
  | nil =>
    simp only [run, Option.some.injEq] at h
    exact h ▸ hc
  | cons op ops ih =>
    simp only [run] at h
    rw [Option.bind_eq_some] at h
    obtain ⟨c2, h2, hrest⟩ := h
    exact ih (hstep fuel c c2 op hc h2) hrest

theorem WF_of_Reachable {maxSize : Int} {c : Cache} (h : Reachable maxSize c) : WF c := by
  obtain ⟨fuel, ops, hrun⟩ := h
  exact run_keeps WF (fun _ _ _ _ hx hs => WF_step hx hs) (WF_NewCache maxSize) hrun

/-! ## Consequences of the structural invariant -/

theorem WF_listKeys_nodup {c : Cache} (h : WF c) : (listKeys c).Nodup := by
  unfold listKeys
  refine List.Nodup.map_on ?_ h.lru_nodup
  intro a ha b hb hab
  have h1 := h.map_complete a ha
  have h2 := h.map_complete b hb
  rw [hab] at h1
  exact map_functional h.keys_nodup h1 h2

theorem WF_mem_keys {c : Cache} (h : WF c) (k : Key) : k ∈ mapKeys c ↔ k ∈ listKeys c := by
  unfold mapKeys listKeys
  simp only [List.mem_map]
  constructor
  · rintro ⟨⟨k1, a⟩, hmem, rfl⟩
    exact ⟨a, (h.map_sound k1 a hmem).1, (h.map_sound k1 a hmem).2⟩
  · rintro ⟨a, ha, rfl⟩
    exact ⟨_, h.map_complete a ha, rfl⟩

theorem WF_length {c : Cache} (h : WF c) : c.lru.length = c.cache.length := by
  have hnd : (c.cache.map Prod.snd).Nodup := by
    refine List.Nodup.map_on ?_ (List.Nodup.of_map Prod.fst h.keys_nodup)
    rintro ⟨k1, a1⟩ h1 ⟨k2, a2⟩ h2 h12
    simp only at h12
    subst h12
    have e1 := (h.map_sound k1 a1 h1).2
    have e2 := (h.map_sound k2 a1 h2).2
    rw [← e1, ← e2]
  have hperm : (c.cache.map Prod.snd).Perm c.lru := by
    rw [List.perm_ext_iff_of_nodup hnd h.lru_nodup]
    intro a
    simp only [List.mem_map]
    constructor
    · rintro ⟨⟨k1, a1⟩, hmem, rfl⟩
      exact (h.map_sound k1 a1 hmem).1
    · intro ha
      exact ⟨_, h.map_complete a ha, rfl⟩
  simpa using hperm.length_eq.symm

/-- The counter never exceeds a non-negative budget, whatever the operations. -/
theorem run_within_budget {maxSize : Int} (h0 : 0 ≤ maxSize) {fuel : Nat} {ops : List Op}
    {c : Cache} (hrun : run fuel (NewCache maxSize) ops = some c) :
    c.curSize ≤ maxSize ∧ c.maxSize = maxSize := by
  refine run_keeps (fun x => x.curSize ≤ maxSize ∧ x.maxSize = maxSize) ?_ ⟨h0, rfl⟩ hrun
  intro fuel c c1 op hc hs
  have hrem : ∀ x : Cache, (x.curSize ≤ maxSize ∧ x.maxSize = maxSize) →
      ((RemoveOldest x).curSize ≤ maxSize ∧ (RemoveOldest x).maxSize = maxSize) := by
    intro x hx
    unfold RemoveOldest
    split
    · refine ⟨?_, hx.2⟩
      show x.curSize - _ ≤ maxSize
      have := hx.1
      omega
    · exact hx
  cases op with
  | add key value =>
    have h1 := Add_within_budget hs
    have h2 := Add_maxSize hs
    exact ⟨by rw [h2, hc.2] at h1; exact h1, h2.trans hc.2⟩
  | get key =>
    simp only [step, Option.some.injEq] at hs
    subst hs
    unfold Get
    split <;> exact hc
  | remove key =>
    simp only [step, Option.some.injEq] at hs
    subst hs
    unfold Remove
    split
    · refine ⟨?_, hc.2⟩
      show c.curSize - _ ≤ maxSize
      have := hc.1
      omega
    · exact hc
  | removeOldest =>
    simp only [step, Option.some.injEq] at hs
    subst hs
    exact hrem c hc
  | wipe => exact WIPE_keeps _ hrem hc hs

/-- When the new value fits, the eviction loop exits at once. -/
theorem evictLoop_fits {c : Cache} {value : Bytes} (fuel : Nat)
    (h : c.curSize + (value.length : Int) ≤ c.maxSize) : evictLoop fuel c value = some (c, 0) := by
  cases fuel <;> simp [evictLoop, Int.not_lt.mpr h]

/-- When the new value does not fit, the loop calls `RemoveOldest` and goes round again. -/
theorem evictLoop_evicts {c : Cache} {value : Bytes} (fuel : Nat)
    (h : c.curSize + (value.length : Int) > c.maxSize) :
    evictLoop (fuel + 1) c value
      = (evictLoop fuel (RemoveOldest c) value).map (fun r => (r.1, r.2 + 1)) := by
  simp [evictLoop, h]

theorem Add_fits {c : Cache} {value : Bytes} (fuel : Nat) (key : Key)
    (h : c.curSize + (value.length : Int) ≤ c.maxSize) :
    Add fuel c key value = some (addEntry c key value) := by
  simp [Add, evictLoop_fits fuel h]

/-! ## More fuel changes nothing -/

theorem evictLoop_mono {fuel : Nat} {c : Cache} {value : Bytes} {r : Cache × Nat}
    (h : evictLoop fuel c value = some r) (extra : Nat) :
    evictLoop (fuel + extra) c value = some r := by
  induction fuel generalizing c r with
  | zero =>
    simp only [evictLoop] at h
    split at h
    · cases h
    · rename_i hle
      cases h
      exact evictLoop_fits _ (Int.not_lt.mp hle)
  | succ f ih =>
    simp only [evictLoop] at h
    split at h
    · rename_i hgt
      rw [Option.map_eq_some'] at h
      obtain ⟨r0, hr0, rfl⟩ := h
      rw [Nat.add_right_comm, evictLoop_evicts _ hgt, ih hr0]
      rfl
    · rename_i hle
      cases h
      exact evictLoop_fits _ (Int.not_lt.mp hle)

theorem WIPE_mono {fuel : Nat} {c c1 : Cache} (h : WIPE fuel c = some c1) (extra : Nat) :
    WIPE (fuel + extra) c = some c1 := by
  induction fuel generalizing c with
  | zero =>
    simp only [WIPE] at h
    split at h
    · cases h
    · rename_i hle
      cases h
      cases extra <;> simp [WIPE, hle]
  | succ f ih =>
    simp only [WIPE] at h
    rw [Nat.add_right_comm]
    split at h
    · rename_i hgt
      simp only [WIPE, hgt, if_true]
      exact ih h
    · rename_i hle
      cases h
      simp [WIPE, hle]

theorem step_mono {fuel : Nat} {c c1 : Cache} {op : Op} (h : step fuel c op = some c1)
    (extra : Nat) : step (fuel + extra) c op = some c1 := by
  cases op with
  | add key value =>
    simp only [step, Add] at h ⊢
    rw [Option.map_eq_some'] at h
    obtain ⟨r, hr, rfl⟩ := h
    rw [evictLoop_mono hr extra]
    rfl
  | get key => exact h
  | remove key => exact h
  | removeOldest => exact h
  | wipe => exact WIPE_mono h extra

theorem run_mono {fuel : Nat} {c c1 : Cache} {ops : List Op} (h : run fuel c ops = some c1)
    (extra : Nat) : run (fuel + extra) c ops = some c1 := by
  induction ops generalizing c with
  | nil => exact h
  | cons op ops ih =>
    simp only [run] at h ⊢
    rw [Option.bind_eq_some] at h
    obtain ⟨c2, h2, hrest⟩ := h
    rw [step_mono h2 extra]
    exact ih hrest

/-- A returning operation on a reachable store leads to a reachable store. -/
theorem Reachable_step {maxSize : Int} {fuel : Nat} {c c1 : Cache} {op : Op}
    (h : Reachable maxSize c) (hs : step fuel c op = some c1) : Reachable maxSize c1 := by
  obtain ⟨f0, ops, hrun⟩ := h
  refine ⟨f0 + fuel, ops ++ [op], ?_⟩
  have h1 := run_mono hrun fuel
  have h2 : step (f0 + fuel) c op = some c1 := by
    rw [Nat.add_comm]
    exact step_mono hs f0
  have happ : ∀ (l : List Op) (x : Cache), run (f0 + fuel) x l = some c →
      run (f0 + fuel) x (l ++ [op]) = some c1 := by
    intro l
    induction l with
    | nil =>
      intro x hx
      simp only [run, Option.some.injEq] at hx
      subst hx
      simp [run, h2]
    | cons o l ih =>
      intro x hx
      simp only [run, List.cons_append] at hx ⊢
      rw [Option.bind_eq_some] at hx
      obtain ⟨x2, hx2, hrest⟩ := hx
      rw [hx2]
      exact ih x2 hrest
  exact happ ops _ h1

/-! ## The counter and the stored bytes -/

theorem entriesSize_nonneg (c : Cache) : 0 ≤ entriesSize c := by
  unfold entriesSize
  apply List.sum_nonneg
  intro x hx
  obtain ⟨a, _, rfl⟩ := List.mem_map.mp hx
  exact Int.natCast_nonneg _

theorem entriesSize_removeElement {c : Cache} {ele : Nat} (h : ele ∈ c.lru) :
    entriesSize (removeElement c ele)
      = entriesSize c - ((deref c.heap ele).Value.length : Int) := by
  have := List.sum_map_erase (fun a => ((deref c.heap a).Value.length : Int)) h
  beta_reduce at this
  unfold entriesSize removeElement
  simp only
  omega

theorem entriesSize_MoveToFront (c : Cache) (e : Nat) :
    entriesSize { c with lru := MoveToFront c.lru e } = entriesSize c := by
  unfold entriesSize MoveToFront
  simp only
  split
  · rename_i he
    exact ((List.perm_cons_erase he).map _).sum_eq.symm
  · rfl

/-- The stored bytes after the second half of `Add`: the new length comes in, the length of
the value that `key` held before (if any) goes out. -/
theorem entriesSize_addEntry {c : Cache} (h : WF c) (key : Key) (value : Bytes) :
    entriesSize (addEntry c key value)
      = entriesSize c + (value.length : Int)
        - (match mapLookup c.cache key with
           | some ele => ((deref c.heap ele).Value.length : Int)
           | none => 0) := by
  unfold addEntry
  split
  · rename_i ele hlook
    have hin : ele ∈ c.lru := (h.map_sound _ _ (mapLookup_some_mem hlook)).1
    have hlt : ele < c.heap.length := h.lru_lt ele hin
    have h1 := List.sum_map_erase (fun a => ((deref c.heap a).Value.length : Int)) hin
    have h2 := List.sum_map_erase
      (fun a => ((deref (c.heap.set ele { Key := (deref c.heap ele).Key, Value := value }) a).Value.length
        : Int)) hin
    have h3 : (c.lru.erase ele).map
        (fun a => ((deref (c.heap.set ele { Key := (deref c.heap ele).Key, Value := value }) a).Value.length
          : Int))
        = (c.lru.erase ele).map (fun a => ((deref c.heap a).Value.length : Int)) := by
      apply List.map_congr_left
      intro b hb
      have hne : b ≠ ele := by
        intro heq
        subst heq
        exact h.lru_nodup.not_mem_erase hb
      simp only [deref_set_ne _ _ hne]
    have h4 : entriesSize { c with lru := MoveToFront c.lru ele,
                                   heap := c.heap.set ele { Key := (deref c.heap ele).Key, Value := value },
                                   curSize := c.curSize + (value.length : Int) }
        = (c.lru.map (fun a =>
            ((deref (c.heap.set ele { Key := (deref c.heap ele).Key, Value := value }) a).Value.length
              : Int))).sum :=
      entriesSize_MoveToFront
        { c with heap := c.heap.set ele { Key := (deref c.heap ele).Key, Value := value },
                 curSize := c.curSize + (value.length : Int) } ele
    rw [h4]
    beta_reduce at h1 h2
    rw [h3, deref_set_eq _ _ hlt] at h2
    simp only at h1 h2 ⊢
    unfold entriesSize
    omega
  · have hmap : c.lru.map (fun a =>
        ((deref (c.heap ++ [{ Key := key, Value := value }]) a).Value.length : Int))
        = c.lru.map (fun a => ((deref c.heap a).Value.length : Int)) := by
      apply List.map_congr_left
      intro b hb
      simp only [deref_append_lt _ _ (h.lru_lt b hb)]
    unfold entriesSize
    simp only [List.map_cons, List.sum_cons, deref_append_length, hmap]
    omega

theorem Lower_removeElement {c : Cache} (h : Lower c) {ele : Nat} (hele : ele ∈ c.lru) :
    Lower (removeElement c ele) := by
  unfold Lower at h ⊢
  rw [entriesSize_removeElement hele]
  show _ ≤ c.curSize - _
  omega

theorem Lower_RemoveOldest {c : Cache} (h : Lower c) : Lower (RemoveOldest c) := by
  unfold RemoveOldest
  split
  · rename_i ele hlast
    exact Lower_removeElement h (List.mem_of_getLast?_eq_some hlast)
  · exact h

theorem Lower_addEntry {c : Cache} (hwf : WF c) (h : Lower c) (key : Key) (value : Bytes) :
    Lower (addEntry c key value) := by
  unfold Lower at h ⊢
  rw [entriesSize_addEntry hwf, addEntry_curSize]
  split
  · rename_i ele _
    have : (0 : Int) ≤ ((deref c.heap ele).Value.length : Int) := Int.natCast_nonneg _
    omega
  · omega

theorem WF_Lower_step {fuel : Nat} {c c1 : Cache} {op : Op}
    (hc : WF c ∧ Lower c) (h : step fuel c op = some c1) : WF c1 ∧ Lower c1 := by
  refine ⟨WF_step hc.1 h, ?_⟩
  cases op with
  | add key value =>
    unfold step Add at h
    rw [Option.map_eq_some'] at h
    obtain ⟨r, hr, rfl⟩ := h
    have hr2 := evictLoop_keeps (fun x => WF x ∧ Lower x)
      (fun _ hx => ⟨WF_RemoveOldest hx.1, Lower_RemoveOldest hx.2⟩) hc hr
    exact Lower_addEntry hr2.1 hr2.2 key value
  | get key =>
    simp only [step, Option.some.injEq] at h
    subst h
    unfold Get
    split
    · unfold Lower
      rw [entriesSize_MoveToFront]
      exact hc.2
    · exact hc.2
  | remove key =>
    simp only [step, Option.some.injEq] at h
    subst h
    unfold Remove
    split
    · rename_i ele hlook
      exact Lower_removeElement hc.2 (hc.1.map_sound _ _ (mapLookup_some_mem hlook)).1
    · exact hc.2
  | removeOldest =>
    simp only [step, Option.some.injEq] at h
    subst h
    exact Lower_RemoveOldest hc.2
  | wipe => exact WIPE_keeps Lower (fun _ hx => Lower_RemoveOldest hx) hc.2 h

theorem Lower_of_Reachable {maxSize : Int} {c : Cache} (h : Reachable maxSize c) : Lower c := by
  obtain ⟨fuel, ops, hrun⟩ := h
  have h0 : WF (NewCache maxSize) ∧ Lower (NewCache maxSize) :=
    ⟨WF_NewCache maxSize, by unfold Lower entriesSize NewCache; simp⟩
  exact (run_keeps (fun x => WF x ∧ Lower x) (fun _ _ _ _ hx hs => WF_Lower_step hx hs) h0 hrun).2

theorem maxSize_of_Reachable {maxSize : Int} {c : Cache} (h : Reachable maxSize c) :
    c.maxSize = maxSize := by
  obtain ⟨fuel, ops, hrun⟩ := h
  refine run_keeps (fun x => x.maxSize = maxSize) ?_ rfl hrun
  intro fuel c c1 op hc hs
  cases op with
  | add key value => exact (Add_maxSize hs).trans hc
  | get key =>
    simp only [step, Option.some.injEq] at hs
    subst hs
    unfold Get
    split <;> exact hc
  | remove key =>
    simp only [step, Option.some.injEq] at hs
    subst hs
    unfold Remove
    split <;> exact hc
  | removeOldest =>
    simp only [step, Option.some.injEq] at hs
    subst hs
    exact (RemoveOldest_maxSize c).trans hc
  | wipe =>
    exact WIPE_keeps (fun x => x.maxSize = maxSize)
      (fun x hx => (RemoveOldest_maxSize x).trans hx) hc hs

/-- The eviction loop cannot exit while the counter is not below zero and the value alone
exceeds the budget: `RemoveOldest` on the empty list changes nothing. -/
theorem evictLoop_oversized {c : Cache} {value : Bytes} (hlow : Lower c)
    (hbig : (value.length : Int) > c.maxSize) (fuel : Nat) : evictLoop fuel c value = none := by
  induction fuel generalizing c with
  | zero =>
    have h0 := entriesSize_nonneg c
    unfold Lower at hlow
    have hover : c.curSize + (value.length : Int) > c.maxSize := by omega
    simp [evictLoop, hover]
  | succ f ih =>
    have h0 := entriesSize_nonneg c
    have hover : c.curSize + (value.length : Int) > c.maxSize := by
      unfold Lower at hlow
      omega
    rw [evictLoop_evicts f hover, ih (Lower_RemoveOldest hlow) (by rw [RemoveOldest_maxSize]; exact hbig)]
    rfl

/-- The eviction loop cannot exit from a state that `RemoveOldest` leaves as it is and in
which the value does not fit. -/
theorem evictLoop_stuck {c : Cache} {value : Bytes} (hfix : RemoveOldest c = c)
    (hover : c.curSize + (value.length : Int) > c.maxSize) (fuel : Nat) :
    evictLoop fuel c value = none := by
  induction fuel with
  | zero => simp [evictLoop, hover]
  | succ f ih => rw [evictLoop_evicts f hover, hfix, ih]; rfl

/-! ## The recency order -/

/-- Under the invariant, the elements other than the one of `key` are the entries with
another key, in the same order. -/
theorem entries_erase {c : Cache} (h : WF c) {key : Key} {ele : Nat}
    (hlook : mapLookup c.cache key = some ele) :
    (c.lru.erase ele).map (deref c.heap)
      = (entries c).filter (fun e => decide (e.Key ≠ key)) := by
  have hmem := mapLookup_some_mem hlook
  have hkey : (deref c.heap ele).Key = key := (h.map_sound _ _ hmem).2
  unfold entries
  rw [List.filter_map, h.lru_nodup.erase_eq_filter]
  congr 1
  apply List.filter_congr
  intro b hb
  by_cases hbe : b = ele
  · subst hbe
    simp [hkey]
  · have hne : (deref c.heap b).Key ≠ key := by
      intro hk
      have h1 := h.map_complete b hb
      rw [hk] at h1
      exact hbe (map_functional h.keys_nodup h1 hmem)
    simp [hbe, hne]

theorem MoveToFront_of_mem {l : List Nat} {e : Nat} (h : e ∈ l) :
    MoveToFront l e = e :: l.erase e := by
  simp [MoveToFront, h]

/-- The entries after the second half of `Add`: the new entry in front, then the entries
with another key in their previous order. -/
theorem entries_addEntry {c : Cache} (h : WF c) (key : Key) (value : Bytes) :
    entries (addEntry c key value)
      = { Key := key, Value := value } :: (entries c).filter (fun e => decide (e.Key ≠ key)) := by
  unfold addEntry
  split
  · rename_i ele hlook
    have hmem := mapLookup_some_mem hlook
    have hin : ele ∈ c.lru := (h.map_sound _ _ hmem).1
    have hkey : (deref c.heap ele).Key = key := (h.map_sound _ _ hmem).2
    have hlt : ele < c.heap.length := h.lru_lt ele hin
    rw [← entries_erase h hlook]
    show (MoveToFront c.lru ele).map (deref (c.heap.set ele _)) = _
    rw [MoveToFront_of_mem hin, List.map_cons, deref_set_eq _ _ hlt, hkey]
    congr 1
    apply List.map_congr_left
    intro b hb
    have hne : b ≠ ele := by
      intro heq
      subst heq
      exact h.lru_nodup.not_mem_erase hb
    exact deref_set_ne _ _ hne
  · rename_i hlook
    have hnot : key ∉ c.cache.map Prod.fst := mapLookup_none_iff.mp hlook
    have hfilter : (entries c).filter (fun e => decide (e.Key ≠ key)) = entries c := by
      rw [List.filter_eq_self]
      intro e he
      obtain ⟨b, hb, rfl⟩ := List.mem_map.mp he
      have hne : (deref c.heap b).Key ≠ key := by
        intro hk
        exact hnot (hk ▸ List.mem_map_of_mem Prod.fst (h.map_complete b hb))
      simpa using hne
    rw [hfilter]
    show (c.heap.length :: c.lru).map (deref (c.heap ++ [_])) = _
    rw [List.map_cons, deref_append_length]
    congr 1
    apply List.map_congr_left
    intro b hb
    exact deref_append_lt _ _ (h.lru_lt b hb)

theorem RemoveOldest_heap (c : Cache) : (RemoveOldest c).heap = c.heap := by
  unfold RemoveOldest
  split <;> rfl

theorem RemoveOldest_lru_sublist (c : Cache) : (RemoveOldest c).lru.Sublist c.lru := by
  unfold RemoveOldest
  split
  · exact List.erase_sublist _ _
  · exact List.Sublist.refl _

/-- The eviction loop leaves the surviving entries as they were and in their order. -/
theorem evictLoop_entries_sublist {fuel : Nat} {c : Cache} {value : Bytes} {r : Cache × Nat}
    (hr : evictLoop fuel c value = some r) : (entries r.1).Sublist (entries c) := by
  have h := evictLoop_keeps (fun x => x.heap = c.heap ∧ x.lru.Sublist c.lru)
    (fun x hx => ⟨(RemoveOldest_heap x).trans hx.1, (RemoveOldest_lru_sublist x).trans hx.2⟩)
    ⟨rfl, List.Sublist.refl _⟩ hr
  unfold entries
  rw [h.1]
  exact h.2.map _

/-! ## The claims -/

/-- C1 (accounting): the claim does not hold of the code.  `Add("a", 3 bytes)` followed by
`Add("a", 3 bytes)` on `NewCache(10)` returns with `Size() = 6` although the only entry stored
is the 3-byte entry of "a": the existing-key branch of `Add` adds the new length and never
takes the old one off. -/
theorem C1_readd_counts_old_size_twice :
    ∃ c, run 0 (NewCache 10) [Op.add "a" (bytes 3), Op.add "a" (bytes 3)] = some c ∧
      entries c = [{ Key := "a", Value := bytes 3 }] ∧ entriesSize c = 3 ∧ Size c = 6 :=
  ⟨{ maxSize := 10, curSize := 6, heap := [{ Key := "a", Value := bytes 3 }], lru := [0],
     cache := [("a", 0)] }, by decide, by decide, by decide, by decide⟩

/-- C2 (budget): for every `maxSize >= 0` and every sequence of `Add` operations on
`NewCache(maxSize)` whose values all have `len(value) <= maxSize`, the state after each
operation of the sequence (after the first `n` of them, for every `n`) has
`Size() <= maxSize`. -/
theorem C2_budget_invariant (maxSize : Int) (h0 : 0 ≤ maxSize) (puts : List (Key × Bytes))
    (_hfit : ∀ p ∈ puts, (p.2.length : Int) ≤ maxSize) (fuel n : Nat) (c : Cache)
    (hrun : run fuel (NewCache maxSize) ((puts.take n).map (fun p => Op.add p.1 p.2)) = some c) :
    Size c ≤ maxSize :=
  (run_within_budget h0 hrun).1

/-- Witness of C2: two 4-byte values followed by a 5-byte value under a budget of 10. -/
theorem C2_budget_invariant_witness :
    Size { maxSize := 10, curSize := 9,
           heap := [{ Key := "a", Value := bytes 4 }, { Key := "b", Value := bytes 4 },
                    { Key := "c", Value := bytes 5 }],
           lru := [2, 1], cache := [("c", 2), ("b", 1)] } ≤ 10 :=
  C2_budget_invariant 10 (by decide) [("a", bytes 4), ("b", bytes 4), ("c", bytes 5)]
    (by decide) 1 3 _ (by decide)

/-- C3 (index/list correspondence): in every state reachable from `NewCache` by `Add`, `Get`,
`Remove`, `RemoveOldest` and `WIPE`, the keys of the lookup map are exactly the keys of the
entries in the recency list, no key occurs twice in the list (nor in the map), every map entry
points at an element of the list that carries the same key, and `Len()` is the number of keys of
the map. -/
theorem C3_index_list_correspondence (maxSize : Int) (c : Cache) (h : Reachable maxSize c) :
    (∀ k, k ∈ mapKeys c ↔ k ∈ listKeys c) ∧
    (listKeys c).Nodup ∧ (mapKeys c).Nodup ∧ c.lru.Nodup ∧
    (∀ k a, mapLookup c.cache k = some a → a ∈ c.lru ∧ (deref c.heap a).Key = k) ∧
    Len c = (mapKeys c).length := by
  have hwf := WF_of_Reachable h
  refine ⟨WF_mem_keys hwf, WF_listKeys_nodup hwf, hwf.keys_nodup, hwf.lru_nodup, ?_, ?_⟩
  · intro k a hlook
    exact hwf.map_sound k a (mapLookup_some_mem hlook)
  · unfold Len mapKeys
    rw [List.length_map]
    exact WF_length hwf

/-- Witness of C3: the store after `Add("a", 4 bytes)`, `Add("b", 4 bytes)`, `Get("a")`. -/
theorem C3_index_list_correspondence_witness :
    Reachable 10 { maxSize := 10, curSize := 8,
                   heap := [{ Key := "a", Value := bytes 4 }, { Key := "b", Value := bytes 4 }],
                   lru := [0, 1], cache := [("b", 1), ("a", 0)] } ∧
    Len { maxSize := 10, curSize := 8,
          heap := [{ Key := "a", Value := bytes 4 }, { Key := "b", Value := bytes 4 }],
          lru := [0, 1], cache := [("b", 1), ("a", 0)] } = 2 :=
  have hr : Reachable 10
      { maxSize := 10, curSize := 8,
        heap := [{ Key := "a", Value := bytes 4 }, { Key := "b", Value := bytes 4 }],
        lru := [0, 1], cache := [("b", 1), ("a", 0)] } :=
    ⟨0, [Op.add "a" (bytes 4), Op.add "b" (bytes 4), Op.get "a"], by decide⟩
  ⟨hr, (C3_index_list_correspondence 10 _ hr).2.2.2.2.2⟩

/-- C4 (LRU eviction order): for pairwise distinct keys `kA`, `kB`, `kC`, `kD` whose values are
such that the first three fit together and fill the store (the fourth does not fit with them
but does once `kB` is gone), `Add kA; Add kB; Add kC; Get kA; Add kD` on `NewCache(maxSize)`
returns, evicts `kB` and nothing else, and leaves the entries `kD, kA, kC` in this recency order.
Concrete scenario: `maxSize = 10; Add("a", 4 bytes); Add("b", 4 bytes); Get("a");
Add("c", 4 bytes)` evicts "b" and leaves exactly the keys a and c, `Size() = 8`, `Len() = 2`. -/
theorem C4_lru_eviction_order (maxSize : Int) (kA kB kC kD : Key) (vA vB vC vD : Bytes)
    (hAB : kA ≠ kB) (hAC : kA ≠ kC) (hAD : kA ≠ kD) (hBC : kB ≠ kC) (hBD : kB ≠ kD)
    (hCD : kC ≠ kD)
    (hfill : (vA.length : Int) + vB.length + vC.length ≤ maxSize)
    (hover : (vA.length : Int) + vB.length + vC.length + vD.length > maxSize)
    (hone : (vA.length : Int) + vC.length + vD.length ≤ maxSize) (fuel : Nat) :
    (∃ c, run (fuel + 1) (NewCache maxSize)
          [Op.add kA vA, Op.add kB vB, Op.add kC vC, Op.get kA, Op.add kD vD] = some c ∧
        entries c = [{ Key := kD, Value := vD }, { Key := kA, Value := vA },
                     { Key := kC, Value := vC }] ∧
        mapKeys c = [kD, kC, kA] ∧ kB ∉ mapKeys c ∧
        Size c = (vA.length : Int) + vC.length + vD.length ∧ Len c = 3) ∧
    (∃ c, run 1 (NewCache 10)
          [Op.add "a" (bytes 4), Op.add "b" (bytes 4), Op.get "a", Op.add "c" (bytes 4)] = some c ∧
        entries c = [{ Key := "c", Value := bytes 4 }, { Key := "a", Value := bytes 4 }] ∧
        mapKeys c = ["c", "a"] ∧ Size c = 8 ∧ Len c = 2) := by
  constructor
  · have hBA : kB ≠ kA := Ne.symm hAB
    have hCA : kC ≠ kA := Ne.symm hAC
    have hDA : kD ≠ kA := Ne.symm hAD
    have hCB : kC ≠ kB := Ne.symm hBC
    have hDB : kD ≠ kB := Ne.symm hBD
    have hDC : kD ≠ kC := Ne.symm hCD
    have nA : (0 : Int) ≤ vA.length := Int.natCast_nonneg _
    have nB : (0 : Int) ≤ vB.length := Int.natCast_nonneg _
    have nC : (0 : Int) ≤ vC.length := Int.natCast_nonneg _
    have nD : (0 : Int) ≤ vD.length := Int.natCast_nonneg _
    -- the three insertions fit
    have s1 : Add (fuel + 1) (NewCache maxSize) kA vA
        = some { maxSize := maxSize, curSize := vA.length,
                 heap := [{ Key := kA, Value := vA }], lru := [0], cache := [(kA, 0)] } := by
      rw [Add_fits]
      · simp [addEntry, NewCache, mapLookup, mapInsert, mapDelete]
      · show (0 : Int) + vA.length ≤ maxSize
        omega
    have s2 : Add (fuel + 1)
          { maxSize := maxSize, curSize := vA.length,
            heap := [{ Key := kA, Value := vA }], lru := [0], cache := [(kA, 0)] } kB vB
        = some { maxSize := maxSize, curSize := (vA.length : Int) + vB.length,
                 heap := [{ Key := kA, Value := vA }, { Key := kB, Value := vB }],
                 lru := [1, 0], cache := [(kB, 1), (kA, 0)] } := by
      rw [Add_fits]
      · simp [addEntry, mapLookup, mapInsert, mapDelete, hAB]
      · show (vA.length : Int) + vB.length ≤ maxSize
        omega
    have s3 : Add (fuel + 1)
          { maxSize := maxSize, curSize := (vA.length : Int) + vB.length,
            heap := [{ Key := kA, Value := vA }, { Key := kB, Value := vB }],
            lru := [1, 0], cache := [(kB, 1), (kA, 0)] } kC vC
        = some { maxSize := maxSize, curSize := (vA.length : Int) + vB.length + vC.length,
                 heap := [{ Key := kA, Value := vA }, { Key := kB, Value := vB },
                          { Key := kC, Value := vC }],
                 lru := [2, 1, 0], cache := [(kC, 2), (kB, 1), (kA, 0)] } := by
      rw [Add_fits]
      · simp [addEntry, mapLookup, mapInsert, mapDelete, hAC, hBC]
      · exact hfill
    -- the read moves kA to the front
    have s4 : (Get
          { maxSize := maxSize, curSize := (vA.length : Int) + vB.length + vC.length,
            heap := [{ Key := kA, Value := vA }, { Key := kB, Value := vB },
                     { Key := kC, Value := vC }],
            lru := [2, 1, 0], cache := [(kC, 2), (kB, 1), (kA, 0)] } kA).1
        = { maxSize := maxSize, curSize := (vA.length : Int) + vB.length + vC.length,
            heap := [{ Key := kA, Value := vA }, { Key := kB, Value := vB },
                     { Key := kC, Value := vC }],
            lru := [0, 2, 1], cache := [(kC, 2), (kB, 1), (kA, 0)] } := by
      simp [Get, mapLookup, hCA, hBA, MoveToFront]
    -- the fourth insertion evicts the tail, which is kB
    have s5 : Add (fuel + 1)
          { maxSize := maxSize, curSize := (vA.length : Int) + vB.length + vC.length,
            heap := [{ Key := kA, Value := vA }, { Key := kB, Value := vB },
                     { Key := kC, Value := vC }],
            lru := [0, 2, 1], cache := [(kC, 2), (kB, 1), (kA, 0)] } kD vD
        = some { maxSize := maxSize, curSize := (vA.length : Int) + vC.length + vD.length,
                 heap := [{ Key := kA, Value := vA }, { Key := kB, Value := vB },
                          { Key := kC, Value := vC }, { Key := kD, Value := vD }],
                 lru := [3, 0, 2], cache := [(kD, 3), (kC, 2), (kA, 0)] } := by
      unfold Add
      rw [evictLoop_evicts fuel hover]
      have hrem : RemoveOldest
            { maxSize := maxSize, curSize := (vA.length : Int) + vB.length + vC.length,
              heap := [{ Key := kA, Value := vA }, { Key := kB, Value := vB },
                       { Key := kC, Value := vC }],
              lru := [0, 2, 1], cache := [(kC, 2), (kB, 1), (kA, 0)] }
          = { maxSize := maxSize, curSize := (vA.length : Int) + vC.length,
              heap := [{ Key := kA, Value := vA }, { Key := kB, Value := vB },
                       { Key := kC, Value := vC }],
              lru := [0, 2], cache := [(kC, 2), (kA, 0)] } := by
        simp [RemoveOldest, removeElement, deref, mapDelete, hCB, hAB]
        omega
      rw [hrem, evictLoop_fits]
      · simp [addEntry, mapLookup, mapInsert, mapDelete, hCD, hAD]
      · show (vA.length : Int) + vC.length + vD.length ≤ maxSize
        exact hone
    refine ⟨{ maxSize := maxSize, curSize := (vA.length : Int) + vC.length + vD.length,
              heap := [{ Key := kA, Value := vA }, { Key := kB, Value := vB },
                       { Key := kC, Value := vC }, { Key := kD, Value := vD }],
              lru := [3, 0, 2], cache := [(kD, 3), (kC, 2), (kA, 0)] }, ?_, ?_⟩
    · simp only [run, step, s1, s2, s3, s4, s5, Option.some_bind]
    · simp [entries, deref, mapKeys, Size, Len, hBD, hBC, hBA]
  · exact ⟨{ maxSize := 10, curSize := 8,
             heap := [{ Key := "a", Value := bytes 4 }, { Key := "b", Value := bytes 4 },
                      { Key := "c", Value := bytes 4 }],
             lru := [2, 0], cache := [("c", 2), ("a", 0)] },
      by decide, by decide, by decide, by decide, by decide⟩

/-- Witness of C4: four 4-byte values under a budget of 12. -/
theorem C4_lru_eviction_order_witness :
    ∃ c, run 1 (NewCache 12) [Op.add "a" (bytes 4), Op.add "b" (bytes 4), Op.add "c" (bytes 4),
                              Op.get "a", Op.add "d" (bytes 4)] = some c ∧
      mapKeys c = ["d", "c", "a"] ∧ Len c = 3 := by
  obtain ⟨c, h1, _, h3, _, _, h6⟩ :=
    (C4_lru_eviction_order 12 "a" "b" "c" "d" (bytes 4) (bytes 4) (bytes 4) (bytes 4)
      (by decide) (by decide) (by decide) (by decide) (by decide) (by decide)
      (by decide) (by decide) (by decide) 0).1
  exact ⟨c, h1, h3, h6⟩

/-- C5 (re-insertion): the claim does not hold of the code.  `Add("k", 4 bytes)` followed by
`Add("k", 2 bytes)` on `NewCache(10)` leaves one entry for "k", holding the second value, as
claimed; but `Size()` goes from 4 to 6, a change of `len(v2) = 2`, where the claim says
`len(v2) - len(v1) = -2`: the 4 bytes of the replaced value stay counted. -/
theorem C5_readd_size_delta_is_new_length :
    ∃ c1 c2, Add 0 (NewCache 10) "k" (bytes 4) = some c1 ∧ Add 0 c1 "k" (bytes 2) = some c2 ∧
      entries c2 = [{ Key := "k", Value := bytes 2 }] ∧ mapKeys c2 = ["k"] ∧
      Size c1 = 4 ∧ Size c2 = 6 ∧
      Size c2 - Size c1 ≠ ((bytes 2).length : Int) - ((bytes 4).length : Int) :=
  ⟨{ maxSize := 10, curSize := 4, heap := [{ Key := "k", Value := bytes 4 }], lru := [0],
     cache := [("k", 0)] },
   { maxSize := 10, curSize := 6, heap := [{ Key := "k", Value := bytes 2 }], lru := [0],
     cache := [("k", 0)] },
   by decide, by decide, by decide, by decide, by decide, by decide, by decide⟩

/-- C6 (bounded eviction): the claim does not hold of the code.  With `maxSize = 10`, three
times `Add("a", 3 bytes)` return and leave one 3-byte entry with `Size() = 9`; the following
`Add("b", 5 bytes)` never returns: its loop evicts "a", the counter is then 6 on an empty
list, `6 + 5 > 10` still holds and `RemoveOldest` has nothing left to remove. -/
theorem C6_add_loops_forever_after_readds :
    ∃ c, run 0 (NewCache 10) [Op.add "a" (bytes 3), Op.add "a" (bytes 3), Op.add "a" (bytes 3)]
          = some c ∧
      Len c = 1 ∧ Size c = 9 ∧ Len (RemoveOldest c) = 0 ∧ Size (RemoveOldest c) = 6 ∧
      ∀ fuel, Add fuel c "b" (bytes 5) = none := by
  refine ⟨{ maxSize := 10, curSize := 9, heap := [{ Key := "a", Value := bytes 3 }], lru := [0],
            cache := [("a", 0)] }, by decide, by decide, by decide, by decide, by decide, ?_⟩
  intro fuel
  cases fuel with
  | zero => decide
  | succ f =>
    unfold Add
    rw [evictLoop_evicts f (by decide), evictLoop_stuck (by decide) (by decide)]
    rfl

/-- C7 (oversized Put): the claim does not hold of the code.  On every store reachable from
`NewCache(maxSize)` and for every value with `len(value) > maxSize`, `Add` never returns: the
loop test `curSize + len(value) > maxSize` stays true when the list is empty, since the
counter is never negative, and `RemoveOldest` then removes nothing. -/
theorem C7_oversized_add_never_returns (maxSize : Int) (c : Cache) (h : Reachable maxSize c)
    (key : Key) (value : Bytes) (hbig : (value.length : Int) > maxSize) (fuel : Nat) :
    Add fuel c key value = none := by
  unfold Add
  rw [evictLoop_oversized (Lower_of_Reachable h) (by rw [maxSize_of_Reachable h]; exact hbig)]
  rfl

/-- Witness of C7: `Add("a", 11 bytes)` on `NewCache(10)` has not returned after a thousand
rounds of its loop. -/
theorem C7_oversized_add_never_returns_witness :
    Add 1000 (NewCache 10) "a" (bytes 11) = none :=
  C7_oversized_add_never_returns 10 (NewCache 10) ⟨0, [], rfl⟩ "a" (bytes 11) (by decide) 1000

/-- C8 (Put/Get round trip): on every store that satisfies the structural invariant (every
reachable store does), whenever `Add(k, v)` returns, an immediately following `Get(k)` returns
`v` and no error, whether `k` was absent or present with another value before. -/
theorem C8_put_get_round_trip (c : Cache) (hwf : WF c) (fuel : Nat) (k : Key) (v : Bytes)
    (c1 : Cache) (hadd : Add fuel c k v = some c1) : (Get c1 k).2 = Except.ok v := by
  unfold Add at hadd
  rw [Option.map_eq_some'] at hadd
  obtain ⟨r, hr, rfl⟩ := hadd
  have hwf0 : WF r.1 := evictLoop_keeps WF (fun _ hx => WF_RemoveOldest hx) hwf hr
  have hwf1 : WF (addEntry r.1 k v) := WF_addEntry hwf0 k v
  have hent := entries_addEntry hwf0 k v
  have hk : k ∈ mapKeys (addEntry r.1 k v) := by
    rw [WF_mem_keys hwf1]
    have : listKeys (addEntry r.1 k v) = (entries (addEntry r.1 k v)).map entry.Key := by
      unfold listKeys entries
      rw [List.map_map]
      rfl
    rw [this, hent]
    simp
  unfold Get
  split
  · rename_i ele hlook
    have hmem := mapLookup_some_mem hlook
    have hin := (hwf1.map_sound _ _ hmem).1
    have hkey := (hwf1.map_sound _ _ hmem).2
    have hin2 : deref (addEntry r.1 k v).heap ele ∈ entries (addEntry r.1 k v) :=
      List.mem_map_of_mem _ hin
    rw [hent] at hin2
    rcases List.mem_cons.mp hin2 with heq | hrest
    · simp only
      rw [heq]
    · have := (List.mem_filter.mp hrest).2
      simp [hkey] at this
  · rename_i hlook
    exact absurd hk (mapLookup_none_iff.mp hlook)

/-- Witness of C8: `Add("a", 4 bytes)` on a store where "a" holds 3 bytes, then `Get("a")`. -/
theorem C8_put_get_round_trip_witness :
    (Get { maxSize := 10, curSize := 7, heap := [{ Key := "a", Value := bytes 4 }], lru := [0],
           cache := [("a", 0)] } "a").2 = Except.ok (bytes 4) :=
  C8_put_get_round_trip
    { maxSize := 10, curSize := 3, heap := [{ Key := "a", Value := bytes 3 }], lru := [0],
      cache := [("a", 0)] }
    (WF_of_Reachable (show Reachable 10 _ from ⟨0, [Op.add "a" (bytes 3)], by decide⟩))
    0 "a" (bytes 4) _ (by decide)

/-- C9 (Get fails iff absent): for every store and key `k`, `Get(k)` returns an error exactly
when `k` is not a key of the lookup map, and then the store is left as it was. -/
theorem C9_get_fails_iff_absent (c : Cache) (k : Key) :
    ((∃ e, (Get c k).2 = Except.error e) ↔ k ∉ mapKeys c) ∧
    (k ∉ mapKeys c → (Get c k).1 = c) := by
  unfold Get mapKeys
  constructor
  · constructor
    · rintro ⟨e, he⟩
      split at he
      · cases he
      · rename_i hlook
        exact mapLookup_none_iff.mp hlook
    · intro hk
      rw [mapLookup_none_iff.mpr hk]
      exact ⟨_, rfl⟩
  · intro hk
    rw [mapLookup_none_iff.mpr hk]

/-- C10 (recency order): on every store that satisfies the structural invariant, after a
`Get(k)` that returns a value `v`, and after an `Add(k, v)` that returns, the entry of `k` is
the head of the recency list and holds `v`; the entries behind it are entries of the store
before the call, with keys other than `k`, in their previous relative order (for `Get`: all
the entries with another key). -/
theorem C10_recency_order (c : Cache) (hwf : WF c) (k : Key) (v : Bytes) :
    ((Get c k).2 = Except.ok v →
      entries (Get c k).1
        = { Key := k, Value := v } :: (entries c).filter (fun e => decide (e.Key ≠ k))) ∧
    (∀ fuel c1, Add fuel c k v = some c1 →
      ∃ rest, entries c1 = { Key := k, Value := v } :: rest ∧ rest.Sublist (entries c) ∧
        ∀ e ∈ rest, e.Key ≠ k) := by
  constructor
  · intro hget
    unfold Get at hget ⊢
    split
    · rename_i ele hlook
      rw [hlook] at hget
      simp only [Except.ok.injEq] at hget
      have hmem := mapLookup_some_mem hlook
      have hin : ele ∈ c.lru := (hwf.map_sound _ _ hmem).1
      have hkey : (deref c.heap ele).Key = k := (hwf.map_sound _ _ hmem).2
      rw [← entries_erase hwf hlook]
      show (MoveToFront c.lru ele).map (deref c.heap) = _
      rw [MoveToFront_of_mem hin, List.map_cons, ← hkey, ← hget]
    · rename_i hlook
      rw [hlook] at hget
      cases hget
  · intro fuel c1 hadd
    unfold Add at hadd
    rw [Option.map_eq_some'] at hadd
    obtain ⟨r, hr, rfl⟩ := hadd
    have hwf0 : WF r.1 := evictLoop_keeps WF (fun _ hx => WF_RemoveOldest hx) hwf hr
    refine ⟨_, entries_addEntry hwf0 k v, ?_, ?_⟩
    · exact (List.filter_sublist _).trans (evictLoop_entries_sublist hr)
    · intro e he
      simpa using (List.mem_filter.mp he).2

/-- Witness of C10: `Get("a")` on the store left by `Add("a", 4 bytes)`, `Add("b", 4 bytes)`
brings "a" in front of "b". -/
theorem C10_recency_order_witness :
    entries (Get { maxSize := 10, curSize := 8,
                   heap := [{ Key := "a", Value := bytes 4 }, { Key := "b", Value := bytes 4 }],
                   lru := [1, 0], cache := [("b", 1), ("a", 0)] } "a").1
      = [{ Key := "a", Value := bytes 4 }, { Key := "b", Value := bytes 4 }] :=
  ((C10_recency_order
      { maxSize := 10, curSize := 8,
        heap := [{ Key := "a", Value := bytes 4 }, { Key := "b", Value := bytes 4 }],
        lru := [1, 0], cache := [("b", 1), ("a", 0)] }
      (WF_of_Reachable (show Reachable 10 _ from
        ⟨0, [Op.add "a" (bytes 4), Op.add "b" (bytes 4)], by decide⟩))
      "a" (bytes 4)).1 rfl).trans (by decide)

/-! ## Removal -/

theorem mapLookup_mapDelete (m : List (Key × Nat)) (k k1 : Key) :
    mapLookup (mapDelete m k) k1 = if k1 = k then none else mapLookup m k1 := by
  induction m with
  | nil => simp [mapDelete, mapLookup]
  | cons p rest ih =>
    obtain ⟨k2, a2⟩ := p
    unfold mapDelete at ih ⊢
    by_cases h2 : k2 = k
    · subst h2
      simp only [List.filter_cons, ne_eq, not_true_eq_false, decide_False, Bool.false_eq_true,
        if_false, ih]
      by_cases h1 : k1 = k2
      · simp [h1]
      · have h3 : ¬ k2 = k1 := fun h => h1 h.symm
        simp [h1, h3, mapLookup]
    · simp only [List.filter_cons, ne_eq, h2, not_false_eq_true, decide_True, if_true, mapLookup]
      by_cases h3 : k2 = k1
      · subst h3
        simp [h2]
      · simp only [h3, if_false, ih]

theorem erase_getLast {l : List Nat} {a : Nat} (hnd : l.Nodup) (h : l.getLast? = some a) :
    l.erase a = l.dropLast := by
  have hl : l.dropLast ++ [a] = l := List.dropLast_append_getLast? a h
  have hnd2 : (l.dropLast ++ [a]).Nodup := by rw [hl]; exact hnd
  have hnot : a ∉ l.dropLast := by
    intro hin
    exact (List.nodup_append.mp hnd2).2.2 hin (List.mem_singleton_self a)
  conv_lhs => rw [← hl]
  rw [List.erase_append_right _ hnot]
  simp

theorem entries_removeElement {c : Cache} (h : WF c) {key : Key} {ele : Nat}
    (hlook : mapLookup c.cache key = some ele) :
    entries (removeElement c ele) = (entries c).filter (fun e => decide (e.Key ≠ key)) :=
  entries_erase h hlook

theorem Len_removeElement {c : Cache} {ele : Nat} (hin : ele ∈ c.lru) :
    Len (removeElement c ele) + 1 = Len c := by
  have hpos := List.length_pos_of_mem hin
  show (c.lru.erase ele).length + 1 = c.lru.length
  rw [List.length_erase_of_mem hin]
  omega

/-- C11 (Remove): on every store that satisfies the structural invariant, `Remove(k)` leaves
the store as it was when `k` is absent; when `k` is present with value `v` (the value that
`Get(k)` returns), then afterwards `k` is absent and `Get(k)` fails, `Len()` is one less,
`Size()` is `len(v)` less, and the entries are the previous entries with another key, with
their values and in their order. -/
theorem C11_remove (c : Cache) (hwf : WF c) (k : Key) :
    (k ∉ mapKeys c → Remove c k = c) ∧
    (∀ v, (Get c k).2 = Except.ok v →
      { Key := k, Value := v } ∈ entries c ∧
      k ∉ mapKeys (Remove c k) ∧ (∃ e, (Get (Remove c k) k).2 = Except.error e) ∧
      Len (Remove c k) + 1 = Len c ∧ Size (Remove c k) = Size c - (v.length : Int) ∧
      entries (Remove c k) = (entries c).filter (fun e => decide (e.Key ≠ k))) := by
  constructor
  · intro hk
    unfold Remove
    rw [mapLookup_none_iff.mpr hk]
  · intro v hget
    unfold Get at hget
    cases hlook : mapLookup c.cache k with
    | none =>
      rw [hlook] at hget
      cases hget
    | some ele =>
      rw [hlook] at hget
      simp only [Except.ok.injEq] at hget
      have hmem := mapLookup_some_mem hlook
      have hin : ele ∈ c.lru := (hwf.map_sound _ _ hmem).1
      have hkey : (deref c.heap ele).Key = k := (hwf.map_sound _ _ hmem).2
      have hrem : Remove c k = removeElement c ele := by
        unfold Remove
        rw [hlook]
      have habs : k ∉ mapKeys (removeElement c ele) := by
        unfold mapKeys
        intro hmem2
        obtain ⟨⟨k1, a1⟩, hp, hk1⟩ := List.mem_map.mp hmem2
        simp only at hk1
        subst hk1
        have hp2 : (k1, a1) ∈ mapDelete c.cache (deref c.heap ele).Key := hp
        exact (mem_mapDelete.mp hp2).2 hkey.symm
      rw [hrem]
      refine ⟨?_, habs, ?_, Len_removeElement hin, ?_, entries_removeElement hwf hlook⟩
      · have : deref c.heap ele = { Key := k, Value := v } := by
          rw [← hkey, ← hget]
        rw [← this]
        exact List.mem_map_of_mem _ hin
      · unfold Get
        rw [mapLookup_none_iff.mpr habs]
        exact ⟨_, rfl⟩
      · show c.curSize - _ = c.curSize - _
        rw [hget]

/-- Witness of C11: `Remove("a")` on the store left by `Add("a", 4 bytes)`,
`Add("b", 3 bytes)`. -/
theorem C11_remove_witness :
    entries (Remove { maxSize := 10, curSize := 7,
                      heap := [{ Key := "a", Value := bytes 4 }, { Key := "b", Value := bytes 3 }],
                      lru := [1, 0], cache := [("b", 1), ("a", 0)] } "a")
      = [{ Key := "b", Value := bytes 3 }] ∧
    Size (Remove { maxSize := 10, curSize := 7,
                   heap := [{ Key := "a", Value := bytes 4 }, { Key := "b", Value := bytes 3 }],
                   lru := [1, 0], cache := [("b", 1), ("a", 0)] } "a") = 3 :=
  have h := (C11_remove
      { maxSize := 10, curSize := 7,
        heap := [{ Key := "a", Value := bytes 4 }, { Key := "b", Value := bytes 3 }],
        lru := [1, 0], cache := [("b", 1), ("a", 0)] }
      (WF_of_Reachable (show Reachable 10 _ from
        ⟨0, [Op.add "a" (bytes 4), Op.add "b" (bytes 3)], by decide⟩))
      "a").2 (bytes 4) rfl
  ⟨h.2.2.2.2.2.trans (by decide), h.2.2.2.2.1.trans (by decide)⟩

/-- C12 (RemoveOldest): on every store that satisfies the structural invariant,
`RemoveOldest` changes nothing when the store is empty; when the recency list ends with the
entry `e`, it removes that entry and no other from the list, removes the key of `e` from the
map and leaves the map as it was at every other key; the elements themselves are untouched. -/
theorem C12_remove_oldest (c : Cache) (hwf : WF c) :
    (Len c = 0 → RemoveOldest c = c) ∧
    (∀ e, (entries c).getLast? = some e →
      entries (RemoveOldest c) = (entries c).dropLast ∧
      e.Key ∉ mapKeys (RemoveOldest c) ∧
      (∀ k, k ≠ e.Key → mapLookup (RemoveOldest c).cache k = mapLookup c.cache k) ∧
      (RemoveOldest c).heap = c.heap ∧
      Len (RemoveOldest c) + 1 = Len c) := by
  constructor
  · intro hlen
    have hnil : c.lru = [] := List.length_eq_zero.mp hlen
    unfold RemoveOldest
    rw [hnil]
    rfl
  · intro e he
    unfold entries at he
    rw [List.getLast?_map] at he
    cases hlast : c.lru.getLast? with
    | none =>
      rw [hlast] at he
      cases he
    | some ele =>
      rw [hlast] at he
      simp only [Option.map_some', Option.some.injEq] at he
      have hin : ele ∈ c.lru := List.mem_of_getLast?_eq_some hlast
      have hrem : RemoveOldest c = removeElement c ele := by
        unfold RemoveOldest
        rw [hlast]
      rw [hrem]
      refine ⟨?_, ?_, ?_, rfl, Len_removeElement hin⟩
      · show (c.lru.erase ele).map (deref c.heap) = (c.lru.map (deref c.heap)).dropLast
        rw [erase_getLast hwf.lru_nodup hlast, List.map_dropLast]
      · unfold mapKeys
        intro hmem2
        obtain ⟨⟨k1, a1⟩, hp, hk1⟩ := List.mem_map.mp hmem2
        simp only at hk1
        have hp2 : (k1, a1) ∈ mapDelete c.cache (deref c.heap ele).Key := hp
        rw [he] at hp2
        exact (mem_mapDelete.mp hp2).2 hk1
      · intro k hk
        show mapLookup (mapDelete c.cache (deref c.heap ele).Key) k = _
        rw [mapLookup_mapDelete, he, if_neg hk]

/-- Witness of C12: `RemoveOldest` on the store left by `Add("a", 4 bytes)`,
`Add("b", 3 bytes)` removes "a". -/
theorem C12_remove_oldest_witness :
    entries (RemoveOldest { maxSize := 10, curSize := 7,
                            heap := [{ Key := "a", Value := bytes 4 },
                                     { Key := "b", Value := bytes 3 }],
                            lru := [1, 0], cache := [("b", 1), ("a", 0)] })
      = [{ Key := "b", Value := bytes 3 }] :=
  ((C12_remove_oldest
      { maxSize := 10, curSize := 7,
        heap := [{ Key := "a", Value := bytes 4 }, { Key := "b", Value := bytes 3 }],
        lru := [1, 0], cache := [("b", 1), ("a", 0)] }
      (WF_of_Reachable (show Reachable 10 _ from
        ⟨0, [Op.add "a" (bytes 4), Op.add "b" (bytes 3)], by decide⟩))).2
    { Key := "a", Value := bytes 4 } (by decide)).1.trans (by decide)

/-! ## Wipe -/

theorem Len_RemoveOldest {c : Cache} (h : Len c > 0) : Len (RemoveOldest c) + 1 = Len c := by
  unfold RemoveOldest
  cases hlast : c.lru.getLast? with
  | none =>
    have hnil : c.lru = [] := List.getLast?_eq_none_iff.mp hlast
    unfold Len at h
    rw [hnil] at h
    exact absurd h (by decide)
  | some ele => exact Len_removeElement (List.mem_of_getLast?_eq_some hlast)

/-- The loop of `WIPE` exits only with an empty list. -/
theorem WIPE_Len {fuel : Nat} {c c1 : Cache} (h : WIPE fuel c = some c1) : Len c1 = 0 := by
  induction fuel generalizing c with
  | zero =>
    simp only [WIPE] at h
    split at h
    · cases h
    · rename_i hle
      cases h
      omega
  | succ f ih =>
    simp only [WIPE] at h
    split at h
    · exact ih h
    · rename_i hle
      cases h
      omega

theorem WIPE_of_empty {c : Cache} (h : Len c = 0) (fuel : Nat) : WIPE fuel c = some c := by
  cases fuel <;> simp [WIPE, h]

/-- The loop of `WIPE` exits after as many rounds as there are elements in the list. -/
theorem WIPE_returns (fuel : Nat) (c : Cache) (h : Len c ≤ fuel) : ∃ c1, WIPE fuel c = some c1 := by
  induction fuel generalizing c with
  | zero => exact ⟨c, WIPE_of_empty (Nat.le_zero.mp h) 0⟩
  | succ f ih =>
    by_cases hpos : Len c > 0
    · have h1 := Len_RemoveOldest hpos
      obtain ⟨c1, hc1⟩ := ih (RemoveOldest c) (by omega)
      exact ⟨c1, by simp only [WIPE, hpos, if_true]; exact hc1⟩
    · exact ⟨c, WIPE_of_empty (by omega) _⟩

/-- C13 (Wipe postcondition): the claim does not hold of the code.  On `NewCache(10)`,
`Add("a", 3 bytes)`, `Add("a", 3 bytes)` and then the loop of `WIPE` return with `Len() = 0`
and `maxSize = 10`, but with `Size() = 3`, not 0: the loop takes off the 3 bytes of the only
entry from a counter that the second `Add` had brought to 6. -/
theorem C13_wipe_leaves_size_after_readd :
    ∃ c, run 1 (NewCache 10) [Op.add "a" (bytes 3), Op.add "a" (bytes 3), Op.wipe] = some c ∧
      Len c = 0 ∧ entries c = [] ∧ mapKeys c = [] ∧ c.maxSize = 10 ∧ Size c = 3 :=
  ⟨{ maxSize := 10, curSize := 3, heap := [{ Key := "a", Value := bytes 3 }], lru := [],
     cache := [] }, by decide, by decide, by decide, by decide, by decide, by decide⟩

/-- C14 (Wipe idempotence): for every store, the loop of `WIPE` leaves a store with
`Len() = 0` as it is; and on any store it returns, given as many rounds as the list has
elements, a store `c1` that a further wipe leaves as it is, so that wipe followed by wipe
gives what a single wipe gives. -/
theorem C14_wipe_idempotent (c : Cache) :
    (Len c = 0 → ∀ fuel, WIPE fuel c = some c) ∧
    (∃ c1, (∀ fuel, Len c ≤ fuel → WIPE fuel c = some c1) ∧
      (∀ fuel, WIPE fuel c1 = some c1) ∧
      (∀ fuel fuel2, Len c ≤ fuel → (WIPE fuel c).bind (WIPE fuel2) = WIPE fuel c)) := by
  refine ⟨fun h fuel => WIPE_of_empty h fuel, ?_⟩
  obtain ⟨c1, hc1⟩ := WIPE_returns (Len c) c (Nat.le_refl _)
  have hall : ∀ fuel, Len c ≤ fuel → WIPE fuel c = some c1 := by
    intro fuel hle
    obtain ⟨d, hd⟩ := Nat.exists_eq_add_of_le hle
    rw [hd]
    exact WIPE_mono hc1 d
  have hfix : ∀ fuel, WIPE fuel c1 = some c1 := fun fuel => WIPE_of_empty (WIPE_Len hc1) fuel
  refine ⟨c1, hall, hfix, ?_⟩
  intro fuel fuel2 hle
  rw [hall fuel hle]
  exact hfix fuel2

/-! ## The handlers -/

/-- C15, as stated, fails: `GET` of the key "a" on the empty store `NewCache(10)` answers
with status 500, which is not 404. -/
theorem C15_missing_key_status_is_500 :
    "a" ∉ mapKeys (NewCache 10) ∧
    responseStatus (GET (NewCache 10) newResponse "a").2 = 500 ∧
    responseStatus (GET (NewCache 10) newResponse "a").2 ≠ 404 := by
  decide

/-- C15 (fetch), amended: for every store and key `k`, when `k` is absent the `GET` handler
answers with status 500 (`http.StatusInternalServerError`), writes no body and leaves the
store as it was; when `k` is present, so that `Get(k)` returns the stored value `v`, it
answers with status 200 and the body `v`. -/
theorem C15_get_handler (c : Cache) (k : Key) :
    (k ∉ mapKeys c →
      GET c newResponse k = (c, { status := some 500, body := [] })) ∧
    (∀ v, (Get c k).2 = Except.ok v →
      (GET c newResponse k).2 = { status := some 200, body := v } ∧
      responseStatus (GET c newResponse k).2 = 200) := by
  constructor
  · intro hk
    unfold GET Get
    rw [mapLookup_none_iff.mpr hk]
    rfl
  · intro v hv
    unfold GET
    cases hg : Get c k with
    | mk c1 res =>
      rw [hg] at hv
      simp only at hv
      subst hv
      exact ⟨rfl, rfl⟩

/-- C16 (unreadable body): the claim does not hold of the code.  When reading the body of a
`PUT` of the key "a" on `NewCache(10)` ends in an error after 3 bytes, the handler writes the
status 500, not 400, and, having no `return` after `WriteHeader` where `GET` has one, goes on
to call `Add` with the bytes read so far: it returns with the store changed, "a" holding those
3 bytes. -/
theorem C16_unreadable_body_still_adds :
    ∃ c1 w1, PUT 0 (NewCache 10) newResponse "a" (bytes 3) true = some (c1, w1) ∧
      responseStatus w1 = 500 ∧ responseStatus w1 ≠ 400 ∧ w1.body = [] ∧
      c1 ≠ NewCache 10 ∧ entries c1 = [{ Key := "a", Value := bytes 3 }] ∧ Size c1 = 3 ∧
      Len c1 = 1 :=
  ⟨{ maxSize := 10, curSize := 3, heap := [{ Key := "a", Value := bytes 3 }], lru := [0],
     cache := [("a", 0)] },
   { status := some 500, body := [] },
   by decide, by decide, by decide, by decide, by decide, by decide, by decide, by decide⟩

/-! ## What the eviction loop evicts -/

theorem tailSize_zero (c : Cache) : tailSize c 0 = 0 := by
  simp [tailSize]

theorem map_rdrop {α β : Type} (f : α → β) (l : List α) (n : Nat) :
    (l.map f).rdrop n = (l.rdrop n).map f := by
  simp [List.rdrop, List.map_take]

/-- The entries are the entries left by removing the last element, followed by the entry of
that element. -/
theorem entries_concat {c : Cache} (hwf : WF c) {ele : Nat} (hlast : c.lru.getLast? = some ele) :
    entries c = entries (removeElement c ele) ++ [deref c.heap ele] := by
  have hl : c.lru.dropLast ++ [ele] = c.lru := List.dropLast_append_getLast? ele hlast
  show c.lru.map (deref c.heap) = (c.lru.erase ele).map (deref c.heap) ++ [deref c.heap ele]
  rw [erase_getLast hwf.lru_nodup hlast]
  conv_lhs => rw [← hl]
  simp

theorem tailSize_succ {c : Cache} (hwf : WF c) {ele : Nat} (hlast : c.lru.getLast? = some ele)
    (i : Nat) :
    tailSize c (i + 1)
      = tailSize (removeElement c ele) i + ((deref c.heap ele).Value.length : Int) := by
  unfold tailSize
  rw [entries_concat hwf hlast, List.rtake_concat_succ]
  simp

/-- The eviction loop removes the last `j` elements of the list, `j` its number of rounds,
and `j` is the first number of tail entries whose removal makes the value fit. -/
theorem evictLoop_tail {fuel : Nat} {c : Cache} {value : Bytes} {r : Cache × Nat}
    (hwf : WF c) (hr : evictLoop fuel c value = some r) :
    r.2 ≤ Len c ∧ r.1.heap = c.heap ∧ r.1.maxSize = c.maxSize ∧ r.1.lru = c.lru.rdrop r.2 ∧
    r.1.curSize = c.curSize - tailSize c r.2 ∧
    (∀ i, i < r.2 → c.curSize - tailSize c i + (value.length : Int) > c.maxSize) := by
  induction fuel generalizing c r with
  | zero =>
    simp only [evictLoop] at hr
    split at hr
    · cases hr
    · cases hr
      simp [tailSize_zero]
  | succ f ih =>
    simp only [evictLoop] at hr
    split at hr
    · rename_i hover
      rw [Option.map_eq_some'] at hr
      obtain ⟨r0, hr0, rfl⟩ := hr
      cases hlast : c.lru.getLast? with
      | none =>
        have hfix : RemoveOldest c = c := by
          unfold RemoveOldest
          rw [hlast]
        rw [hfix, evictLoop_stuck hfix hover f] at hr0
        cases hr0
      | some ele =>
        have hrem : RemoveOldest c = removeElement c ele := by
          unfold RemoveOldest
          rw [hlast]
        rw [hrem] at hr0
        have hin : ele ∈ c.lru := List.mem_of_getLast?_eq_some hlast
        have hwf1 : WF (removeElement c ele) := WF_removeElement hwf hin
        obtain ⟨h1, h2, h3, h4, h5, h6⟩ := ih (r := r0) hwf1 hr0
        have hlen := Len_removeElement hin
        have hl : c.lru.dropLast ++ [ele] = c.lru := List.dropLast_append_getLast? ele hlast
        have hlru : (removeElement c ele).lru = c.lru.dropLast := erase_getLast hwf.lru_nodup hlast
        refine ⟨by show r0.2 + 1 ≤ Len c; omega, h2, h3, ?_, ?_, ?_⟩
        · show r0.1.lru = c.lru.rdrop (r0.2 + 1)
          rw [h4, hlru]
          conv_rhs => rw [← hl]
          rw [List.rdrop_concat_succ]
        · show r0.1.curSize = c.curSize - tailSize c (r0.2 + 1)
          rw [h5, tailSize_succ hwf hlast]
          show c.curSize - _ - _ = _
          omega
        · intro i hi
          cases i with
          | zero =>
            rw [tailSize_zero]
            omega
          | succ i1 =>
            have h7 := h6 i1 (by omega)
            rw [tailSize_succ hwf hlast]
            have h8 : (removeElement c ele).curSize
                = c.curSize - ((deref c.heap ele).Value.length : Int) := rfl
            have h9 : (removeElement c ele).maxSize = c.maxSize := rfl
            rw [h8, h9] at h7
            omega
    · cases hr
      simp [tailSize_zero]

/-- Without wrap-around: when `Add(key, value)` returns on a store that satisfies the
structural invariant, its loop has made `j <= Len()` rounds and left the list without its last
`j` entries, where `j` is the least number such that `Size()` minus the sizes of the last `j`
entries plus `len(value)` is `<= maxSize`. -/
theorem Add_minimal_tail (c : Cache) (hwf : WF c) (fuel : Nat) (key : Key)
    (value : Bytes) (c1 : Cache) (hadd : Add fuel c key value = some c1) :
    ∃ c0 j, evictLoop fuel c value = some (c0, j) ∧ c1 = addEntry c0 key value ∧
      j ≤ Len c ∧ entries c0 = (entries c).rdrop j ∧
      Size c - tailSize c j + (value.length : Int) ≤ c.maxSize ∧
      (∀ i, i < j → Size c - tailSize c i + (value.length : Int) > c.maxSize) ∧
      entries c1 = { Key := key, Value := value }
        :: ((entries c).rdrop j).filter (fun e => decide (e.Key ≠ key)) ∧
      (Size c + (value.length : Int) ≤ c.maxSize →
        j = 0 ∧
        entries c1 = { Key := key, Value := value }
          :: (entries c).filter (fun e => decide (e.Key ≠ key))) := by
  unfold Add at hadd
  rw [Option.map_eq_some'] at hadd
  obtain ⟨⟨c0, j⟩, hr, rfl⟩ := hadd
  have hwf0 : WF c0 := evictLoop_keeps WF (fun _ hx => WF_RemoveOldest hx) hwf hr
  obtain ⟨h1, h2, h3, h4, h5, h6⟩ := evictLoop_tail hwf hr
  simp only at h1 h2 h3 h4 h5 h6
  have hexit := evictLoop_exit hr
  simp only at hexit
  have hent0 : entries c0 = (entries c).rdrop j := by
    unfold entries
    rw [h2, h4, map_rdrop]
  have hent1 := entries_addEntry hwf0 key value
  rw [hent0] at hent1
  have hj0 : Size c + (value.length : Int) ≤ c.maxSize → j = 0 := by
    intro hfit
    by_contra hne
    have := h6 0 (Nat.pos_of_ne_zero hne)
    rw [tailSize_zero] at this
    unfold Size at hfit
    omega
  refine ⟨c0, j, hr, rfl, h1, hent0, ?_, h6, hent1, ?_⟩
  · rw [h5, h3] at hexit
    exact hexit
  · intro hfit
    have hj := hj0 hfit
    refine ⟨hj, ?_⟩
    rw [hent1, hj, List.rdrop_zero]

/-! ## When the counter is exact -/

theorem exact_RemoveOldest {c : Cache} (h : c.curSize = entriesSize c) :
    (RemoveOldest c).curSize = entriesSize (RemoveOldest c) := by
  unfold RemoveOldest
  split
  · rename_i ele hlast
    rw [entriesSize_removeElement (List.mem_of_getLast?_eq_some hlast)]
    show c.curSize - _ = _
    rw [h]
  · exact h

theorem exact_step {fuel : Nat} {c c1 : Cache} {op : Op}
    (hc : WF c ∧ c.curSize = entriesSize c) (hs : step fuel c op = some c1)
    (hfresh : addsFresh fuel c op = true) :
    WF c1 ∧ c1.curSize = entriesSize c1 := by
  refine ⟨WF_step hc.1 hs, ?_⟩
  cases op with
  | add key value =>
    simp only [step, Add] at hs
    rw [Option.map_eq_some'] at hs
    obtain ⟨r, hr, rfl⟩ := hs
    have hr2 := evictLoop_keeps (fun x => WF x ∧ x.curSize = entriesSize x)
      (fun _ hx => ⟨WF_RemoveOldest hx.1, exact_RemoveOldest hx.2⟩) hc hr
    have hnone : mapLookup r.1.cache key = none := by
      simp only [addsFresh, addFinds, hr, Bool.not_eq_true'] at hfresh
      cases hm : mapLookup r.1.cache key with
      | none => rfl
      | some a =>
        rw [hm] at hfresh
        cases hfresh
    rw [entriesSize_addEntry hr2.1, addEntry_curSize, hnone, hr2.2]
    simp
  | get key =>
    simp only [step, Option.some.injEq] at hs
    subst hs
    unfold Get
    split
    · rw [entriesSize_MoveToFront]
      exact hc.2
    · exact hc.2
  | remove key =>
    simp only [step, Option.some.injEq] at hs
    subst hs
    unfold Remove
    split
    · rename_i ele hlook
      rw [entriesSize_removeElement (hc.1.map_sound _ _ (mapLookup_some_mem hlook)).1]
      show c.curSize - _ = _
      rw [hc.2]
    · exact hc.2
  | removeOldest =>
    simp only [step, Option.some.injEq] at hs
    subst hs
    exact exact_RemoveOldest hc.2
  | wipe =>
    exact WIPE_keeps (fun x => x.curSize = entriesSize x) (fun _ hx => exact_RemoveOldest hx)
      hc.2 hs

theorem exact_run {fuel : Nat} {c c1 : Cache} {ops : List Op}
    (hc : WF c ∧ c.curSize = entriesSize c) (hrun : run fuel c ops = some c1)
    (hfresh : noReadd fuel c ops = true) : WF c1 ∧ c1.curSize = entriesSize c1 := by
  induction ops generalizing c with
  | nil =>
    simp only [run, Option.some.injEq] at hrun
    exact hrun ▸ hc
  | cons op ops ih =>
    simp only [run] at hrun
    rw [Option.bind_eq_some] at hrun
    obtain ⟨c2, h2, hrest⟩ := hrun
    simp only [noReadd, Bool.and_eq_true, h2] at hfresh
    exact ih (exact_step hc h2 hfresh.1) hrest hfresh.2

/-- Without wrap-around: in every state reached from `NewCache(maxSize)` by operations that
return, the counter is at least the stored bytes, hence at least 0; the two are equal when no
`Add` of the sequence found its key still present after its eviction loop. -/
theorem run_counter_lower_exact (maxSize : Int) (fuel : Nat) (ops : List Op) (c : Cache)
    (hrun : run fuel (NewCache maxSize) ops = some c) :
    entriesSize c ≤ Size c ∧ 0 ≤ Size c ∧
    (noReadd fuel (NewCache maxSize) ops = true → Size c = entriesSize c) := by
  have hlow : entriesSize c ≤ c.curSize := Lower_of_Reachable ⟨fuel, ops, hrun⟩
  refine ⟨hlow, le_trans (entriesSize_nonneg c) hlow, ?_⟩
  intro hfresh
  have h0 : WF (NewCache maxSize) ∧ (NewCache maxSize).curSize = entriesSize (NewCache maxSize) :=
    ⟨WF_NewCache maxSize, by simp [entriesSize, NewCache]⟩
  exact (exact_run h0 hrun hfresh).2

/-- C20 (Get changes only the order): for every store and every key `k` that the map sends to
the element `ele`, `Get(k)` leaves `Len()`, `Size()`, `maxSize`, the map, the elements (hence
the keys and the value stored under every key, and what a `Get` of any key returns) as they
were; the list is a rearrangement of the previous list, and apart from `ele` it is the
previous list. -/
theorem C20_get_changes_only_order (c : Cache) (k : Key) (ele : Nat)
    (hlook : mapLookup c.cache k = some ele) :
    Len (Get c k).1 = Len c ∧ Size (Get c k).1 = Size c ∧ (Get c k).1.maxSize = c.maxSize ∧
    (Get c k).1.cache = c.cache ∧ (Get c k).1.heap = c.heap ∧
    mapKeys (Get c k).1 = mapKeys c ∧
    (∀ k2, (Get (Get c k).1 k2).2 = (Get c k2).2) ∧
    (Get c k).1.lru.Perm c.lru ∧
    (Get c k).1.lru.erase ele = c.lru.erase ele := by
  have hget : (Get c k).1 = { c with lru := MoveToFront c.lru ele } := by
    unfold Get
    rw [hlook]
  rw [hget]
  refine ⟨length_MoveToFront c.lru ele, rfl, rfl, rfl, rfl, rfl, fun k2 => ?_, ?_, ?_⟩
  · unfold Get
    simp only
    cases mapLookup c.cache k2 <;> rfl
  · show (MoveToFront c.lru ele).Perm c.lru
    unfold MoveToFront
    split
    · rename_i hin
      exact (List.perm_cons_erase hin).symm
    · exact List.Perm.refl _
  · show (MoveToFront c.lru ele).erase ele = c.lru.erase ele
    unfold MoveToFront
    split
    · simp
    · rfl

/-- Witness of C20: `Get("a")` on the store left by `Add("a", 4 bytes)`, `Add("b", 3 bytes)`. -/
theorem C20_get_changes_only_order_witness :
    Len (Get { maxSize := 10, curSize := 7,
               heap := [{ Key := "a", Value := bytes 4 }, { Key := "b", Value := bytes 3 }],
               lru := [1, 0], cache := [("b", 1), ("a", 0)] } "a").1 = 2 :=
  (C20_get_changes_only_order
    { maxSize := 10, curSize := 7,
      heap := [{ Key := "a", Value := bytes 4 }, { Key := "b", Value := bytes 3 }],
      lru := [1, 0], cache := [("b", 1), ("a", 0)] } "a" 0 (by decide)).1.trans (by decide)

/-! ## The 64-bit counter agrees with the unbounded one while nothing overflows -/

theorem wrap64_of_range {x : Int} (h1 : -9223372036854775808 ≤ x)
    (h2 : x < 9223372036854775808) : wrap64 x = x := by
  unfold wrap64
  omega

theorem size_le_entriesSize {c : Cache} {ele : Nat} (h : ele ∈ c.lru) :
    ((deref c.heap ele).Value.length : Int) ≤ entriesSize c := by
  have h1 := entriesSize_removeElement h
  have h2 := entriesSize_nonneg (removeElement c ele)
  omega

theorem removeElement64_eq {c : Cache} {ele : Nat} (h : ele ∈ c.lru)
    (hlo : -9223372036854775808 ≤ c.curSize - entriesSize c)
    (hhi : c.curSize < 9223372036854775808) : removeElement64 c ele = removeElement c ele := by
  have h1 := size_le_entriesSize h
  have h2 : (0 : Int) ≤ ((deref c.heap ele).Value.length : Int) := Int.natCast_nonneg _
  unfold removeElement64 removeElement
  rw [wrap64_of_range (by omega) (by omega)]

theorem RemoveOldest64_eq {c : Cache}
    (hlo : -9223372036854775808 ≤ c.curSize - entriesSize c)
    (hhi : c.curSize < 9223372036854775808) : RemoveOldest64 c = RemoveOldest c := by
  unfold RemoveOldest64 RemoveOldest
  cases hlast : c.lru.getLast? with
  | none => rfl
  | some ele => exact removeElement64_eq (List.mem_of_getLast?_eq_some hlast) hlo hhi

theorem Remove64_eq {c : Cache} (hwf : WF c)
    (hlo : -9223372036854775808 ≤ c.curSize - entriesSize c)
    (hhi : c.curSize < 9223372036854775808) (key : Key) : Remove64 c key = Remove c key := by
  unfold Remove64 Remove
  cases hlook : mapLookup c.cache key with
  | none => rfl
  | some ele =>
    exact removeElement64_eq (hwf.map_sound _ _ (mapLookup_some_mem hlook)).1 hlo hhi

/-- `RemoveOldest` takes the same amount off the counter and off the stored bytes, and does not
raise the counter. -/
theorem RemoveOldest_slack (c : Cache) :
    (RemoveOldest c).curSize - entriesSize (RemoveOldest c) = c.curSize - entriesSize c ∧
    (RemoveOldest c).curSize ≤ c.curSize := by
  unfold RemoveOldest
  cases hlast : c.lru.getLast? with
  | none => exact ⟨rfl, le_refl _⟩
  | some ele =>
    have hin := List.mem_of_getLast?_eq_some hlast
    have h1 := entriesSize_removeElement hin
    have h2 : (0 : Int) ≤ ((deref c.heap ele).Value.length : Int) := Int.natCast_nonneg _
    have h3 : (removeElement c ele).curSize
        = c.curSize - ((deref c.heap ele).Value.length : Int) := rfl
    simp only
    constructor <;> omega

theorem evictLoop64_eq {c : Cache} {value : Bytes} (fuel : Nat)
    (hlo : -9223372036854775808 ≤ c.curSize - entriesSize c)
    (hhi : c.curSize + (value.length : Int) < 9223372036854775808) :
    evictLoop64 fuel c value = evictLoop fuel c value := by
  induction fuel generalizing c with
  | zero =>
    have h0 := entriesSize_nonneg c
    have hv : (0 : Int) ≤ (value.length : Int) := Int.natCast_nonneg _
    simp only [evictLoop64, evictLoop]
    rw [wrap64_of_range (by omega) hhi]
  | succ f ih =>
    have h0 := entriesSize_nonneg c
    have hv : (0 : Int) ≤ (value.length : Int) := Int.natCast_nonneg _
    have hs := RemoveOldest_slack c
    simp only [evictLoop64, evictLoop]
    rw [wrap64_of_range (by omega) hhi, RemoveOldest64_eq hlo (by omega),
      ih (by rw [hs.1]; exact hlo) (by have := hs.2; omega)]

theorem addEntry64_eq {c : Cache} {value : Bytes} (key : Key)
    (hlo : -9223372036854775808 ≤ c.curSize + (value.length : Int))
    (hhi : c.curSize + (value.length : Int) < 9223372036854775808) :
    addEntry64 c key value = addEntry c key value := by
  unfold addEntry64 addEntry
  rw [wrap64_of_range hlo hhi]

/-- What the eviction loop keeps of the bounds it starts from. -/
theorem evictLoop_bounds {fuel : Nat} {c : Cache} {value : Bytes} {r : Cache × Nat}
    (hr : evictLoop fuel c value = some r) :
    r.1.curSize - entriesSize r.1 = c.curSize - entriesSize c ∧ r.1.curSize ≤ c.curSize :=
  evictLoop_keeps
    (fun x => x.curSize - entriesSize x = c.curSize - entriesSize c ∧ x.curSize ≤ c.curSize)
    (fun x hx => ⟨(RemoveOldest_slack x).1.trans hx.1, le_trans (RemoveOldest_slack x).2 hx.2⟩)
    ⟨rfl, le_refl _⟩ hr

theorem Add64_eq_Add {c : Cache} {value : Bytes} (fuel : Nat) (key : Key)
    (hlo : -9223372036854775808 ≤ c.curSize - entriesSize c)
    (hhi : c.curSize + (value.length : Int) < 9223372036854775808) :
    Add64 fuel c key value = Add fuel c key value := by
  unfold Add64 Add
  rw [evictLoop64_eq fuel hlo hhi]
  cases hr : evictLoop fuel c value with
  | none => rfl
  | some r =>
    have hb := evictLoop_bounds hr
    have h0 := entriesSize_nonneg r.1
    have hv : (0 : Int) ≤ (value.length : Int) := Int.natCast_nonneg _
    simp only [Option.map_some']
    rw [addEntry64_eq key (by omega) (by omega)]

theorem WIPE64_eq {c : Cache} (fuel : Nat)
    (hlo : -9223372036854775808 ≤ c.curSize - entriesSize c)
    (hhi : c.curSize < 9223372036854775808) : WIPE64 fuel c = WIPE fuel c := by
  induction fuel generalizing c with
  | zero => rfl
  | succ f ih =>
    have hs := RemoveOldest_slack c
    simp only [WIPE64, WIPE]
    rw [RemoveOldest64_eq hlo hhi, ih (by rw [hs.1]; exact hlo) (by have := hs.2; omega)]

theorem step64_eq_step (fuel : Nat) {c : Cache} {op : Op}
    (hc : WF c ∧ Lower c ∧ c.curSize < 9223372036854775808) (hop : addInRange c op = true) :
    step64 fuel c op = step fuel c op ∧ addsFresh64 fuel c op = addsFresh fuel c op := by
  have hlow : entriesSize c ≤ c.curSize := hc.2.1
  have hlo : -9223372036854775808 ≤ c.curSize - entriesSize c := by omega
  cases op with
  | add key value =>
    have hhi : c.curSize + (value.length : Int) < 9223372036854775808 := by
      simpa [addInRange] using hop
    refine ⟨Add64_eq_Add fuel key hlo hhi, ?_⟩
    simp only [addsFresh64, addsFresh, addFinds64, addFinds, evictLoop64_eq fuel hlo hhi]
  | get key => exact ⟨rfl, rfl⟩
  | remove key =>
    refine ⟨?_, rfl⟩
    simp only [step64, step, Remove64_eq hc.1 hlo hc.2.2]
  | removeOldest =>
    refine ⟨?_, rfl⟩
    simp only [step64, step, RemoveOldest64_eq hlo hc.2.2]
  | wipe => exact ⟨WIPE64_eq fuel hlo hc.2.2, rfl⟩

theorem step_in_range {fuel : Nat} {c c1 : Cache} {op : Op}
    (hc : WF c ∧ Lower c ∧ c.curSize < 9223372036854775808) (hop : addInRange c op = true)
    (hs : step fuel c op = some c1) :
    WF c1 ∧ Lower c1 ∧ c1.curSize < 9223372036854775808 := by
  have h12 := WF_Lower_step ⟨hc.1, hc.2.1⟩ hs
  refine ⟨h12.1, h12.2, ?_⟩
  have hcur := hc.2.2
  cases op with
  | add key value =>
    have hhi : c.curSize + (value.length : Int) < 9223372036854775808 := by
      simpa [addInRange] using hop
    simp only [step, Add] at hs
    rw [Option.map_eq_some'] at hs
    obtain ⟨r, hr, rfl⟩ := hs
    have hb := (evictLoop_bounds hr).2
    rw [addEntry_curSize]
    omega
  | get key =>
    simp only [step, Option.some.injEq] at hs
    subst hs
    unfold Get
    split <;> exact hcur
  | remove key =>
    simp only [step, Option.some.injEq] at hs
    subst hs
    unfold Remove
    split
    · rename_i ele _
      have h2 : (0 : Int) ≤ ((deref c.heap ele).Value.length : Int) := Int.natCast_nonneg _
      show c.curSize - _ < _
      omega
    · exact hcur
  | removeOldest =>
    simp only [step, Option.some.injEq] at hs
    subst hs
    have := (RemoveOldest_slack c).2
    omega
  | wipe =>
    have := WIPE_keeps (fun x => x.curSize ≤ c.curSize)
      (fun x hx => le_trans (RemoveOldest_slack x).2 hx) (le_refl _) hs
    simp only at this
    omega

/-- A 64-bit run in which no `Add` is called with `Size() + len(value)` above `2^63 - 1`
is the run without wrap-around. -/
theorem run64_eq_run {fuel : Nat} {c : Cache} {ops : List Op}
    (hc : WF c ∧ Lower c ∧ c.curSize < 9223372036854775808)
    (hrange : noOverflow fuel c ops = true) :
    run64 fuel c ops = run fuel c ops ∧ noReadd64 fuel c ops = noReadd fuel c ops := by
  induction ops generalizing c with
  | nil => exact ⟨rfl, rfl⟩
  | cons op ops ih =>
    simp only [noOverflow, Bool.and_eq_true] at hrange
    obtain ⟨hop, hrest⟩ := hrange
    obtain ⟨hstep, hfresh⟩ := step64_eq_step fuel hc hop
    rw [hstep] at hrest
    cases hs : step fuel c op with
    | none => simp [run64, run, noReadd64, noReadd, hstep, hfresh, hs]
    | some c1 =>
      rw [hs] at hrest
      obtain ⟨h1, h2⟩ := ih (step_in_range hc hop hs) hrest
      simp [run64, run, noReadd64, noReadd, hstep, hfresh, hs, h1, h2]

theorem run64_append (fuel : Nat) (c : Cache) (l1 l2 : List Op) :
    run64 fuel c (l1 ++ l2) = (run64 fuel c l1).bind (fun c1 => run64 fuel c1 l2) := by
  induction l1 generalizing c with
  | nil => rfl
  | cons op l1 ih =>
    simp only [List.cons_append, run64]
    cases step64 fuel c op with
    | none => rfl
    | some c1 => exact ih c1

/-- One more `Add("a", 1 byte)` on `readdStore k` raises the counter by one, as long as the
result is at most `2^63 - 1`. -/
theorem Add64_readdStore (k : Int) (hk : 0 ≤ k) (hle : k + 1 ≤ 9223372036854775807) :
    Add64 0 (readdStore k) "a" (bytes 1) = some (readdStore (k + 1)) := by
  have hw : wrap64 (k + 1) = k + 1 := wrap64_of_range (by omega) (by omega)
  have hnot : ¬ (k + 1 > 9223372036854775807) := by omega
  simp [Add64, evictLoop64, addEntry64, readdStore, bytes, mapLookup, MoveToFront, deref, hw,
    hnot]

/-- Repeated `Add("a", 1 byte)` on `readdStore k` raises the counter by one each time. -/
theorem run64_readds (n : Nat) (k : Int) (hk : 0 ≤ k)
    (hle : k + (n : Int) ≤ 9223372036854775807) :
    run64 0 (readdStore k) (List.replicate n (Op.add "a" (bytes 1)))
      = some (readdStore (k + (n : Int))) := by
  induction n generalizing k with
  | zero => simp [run64]
  | succ m ih =>
    have h1 := Add64_readdStore k hk (by push_cast at hle; omega)
    have h2 := ih (k + 1) (by omega) (by push_cast at hle ⊢; omega)
    have h3 : k + 1 + (m : Int) = k + ((m + 1 : Nat) : Int) := by push_cast; omega
    rw [List.replicate_succ]
    show (step64 0 (readdStore k) (Op.add "a" (bytes 1))).bind _ = _
    show (Add64 0 (readdStore k) "a" (bytes 1)).bind _ = _
    rw [h1, Option.some_bind, h2, h3]

/-- The store with the counter at `2^63 - 1` for a single stored byte is reached from
`NewCache(2^63 - 1)` by `2^63 - 1` calls of `Add("a", 1 byte)`. -/
theorem run64_reaches_full :
    run64 0 (NewCache 9223372036854775807)
        (Op.add "a" (bytes 1) :: List.replicate 9223372036854775806 (Op.add "a" (bytes 1)))
      = some (readdStore 9223372036854775807) := by
  have h1 : step64 0 (NewCache 9223372036854775807) (Op.add "a" (bytes 1))
      = some (readdStore 1) := by decide
  have h2 := run64_readds 9223372036854775806 1 (by decide) (by decide)
  have h3 : (1 : Int) + ((9223372036854775806 : Nat) : Int) = 9223372036854775807 := by decide
  rw [h3] at h2
  show (step64 0 (NewCache 9223372036854775807) (Op.add "a" (bytes 1))).bind _ = _
  rw [h1, Option.some_bind, h2]

/-! ## The claims on the 64-bit counter -/

/-- C18, as stated, fails.  The store in which "a" holds one byte and `Size()` is `2^63 - 1`
is reached from `NewCache(2^63 - 1)` by `2^63 - 1` calls of `Add("a", 1 byte)`.  On it
`Add("b", 1 byte)` returns after no round of its loop and evicts nothing: the sum
`Size() + 1` wraps to `-2^63`, which is not above `maxSize`.  Yet `Size() + 1 <= maxSize` is
false and `Size() - 1 + 1 <= maxSize` is true, so the least number of the claim is 1 and the
claim has "a" evicted. -/
theorem C18_wrapped_sum_evicts_nothing :
    run64 0 (NewCache 9223372036854775807)
        (Op.add "a" (bytes 1) :: List.replicate 9223372036854775806 (Op.add "a" (bytes 1)))
      = some (readdStore 9223372036854775807) ∧
    evictLoop64 0 (readdStore 9223372036854775807) (bytes 1)
      = some (readdStore 9223372036854775807, 0) ∧
    (∃ c1, Add64 0 (readdStore 9223372036854775807) "b" (bytes 1) = some c1 ∧
      entries c1 = [{ Key := "b", Value := bytes 1 }, { Key := "a", Value := bytes 1 }] ∧
      Size c1 = -9223372036854775808) ∧
    ¬ (Size (readdStore 9223372036854775807) - tailSize (readdStore 9223372036854775807) 0
        + ((bytes 1).length : Int) ≤ (readdStore 9223372036854775807).maxSize) ∧
    Size (readdStore 9223372036854775807) - tailSize (readdStore 9223372036854775807) 1
        + ((bytes 1).length : Int) ≤ (readdStore 9223372036854775807).maxSize :=
  ⟨run64_reaches_full, by decide,
   ⟨{ maxSize := 9223372036854775807, curSize := -9223372036854775808,
      heap := [{ Key := "a", Value := bytes 1 }, { Key := "b", Value := bytes 1 }],
      lru := [1, 0], cache := [("b", 1), ("a", 0)] }, by decide, by decide, by decide⟩,
   by decide, by decide⟩

/-- C18 (minimal tail eviction), amended: on every store that satisfies the structural
invariant and on which `Size() + len(value)` is at most the largest `int`, `2^63 - 1`, and
`Size()` minus the stored bytes is at least the smallest `int`, `-2^63` (so that no sum or
difference of the call wraps), when `Add(key, value)` returns, its loop has made
`j <= Len()` rounds and left the list without its last `j` entries, where `j` is the least
number such that `Size()` minus the sizes of the last `j` entries plus `len(value)` is
`<= maxSize`; the store then holds the new entry followed by the entries left that have
another key.  When `Size() + len(value) <= maxSize` holds at the call, `j = 0`: nothing is
evicted and every entry with another key stays. -/
theorem C18_minimal_tail_eviction (c : Cache) (hwf : WF c)
    (hlo : -9223372036854775808 ≤ Size c - entriesSize c)
    (fuel : Nat) (key : Key) (value : Bytes)
    (hhi : Size c + (value.length : Int) < 9223372036854775808)
    (c1 : Cache) (hadd : Add64 fuel c key value = some c1) :
    ∃ c0 j, evictLoop64 fuel c value = some (c0, j) ∧ c1 = addEntry64 c0 key value ∧
      j ≤ Len c ∧ entries c0 = (entries c).rdrop j ∧
      Size c - tailSize c j + (value.length : Int) ≤ c.maxSize ∧
      (∀ i, i < j → Size c - tailSize c i + (value.length : Int) > c.maxSize) ∧
      entries c1 = { Key := key, Value := value }
        :: ((entries c).rdrop j).filter (fun e => decide (e.Key ≠ key)) ∧
      (Size c + (value.length : Int) ≤ c.maxSize →
        j = 0 ∧
        entries c1 = { Key := key, Value := value }
          :: (entries c).filter (fun e => decide (e.Key ≠ key))) := by
  rw [Add64_eq_Add fuel key hlo hhi] at hadd
  obtain ⟨c0, j, h1, h2, h3, h4, h5, h6, h7, h8⟩ := Add_minimal_tail c hwf fuel key value c1 hadd
  have hb := evictLoop_bounds h1
  have h0 := entriesSize_nonneg c0
  have hv : (0 : Int) ≤ (value.length : Int) := Int.natCast_nonneg _
  have hlo2 : -9223372036854775808 ≤ c.curSize - entriesSize c := hlo
  have hhi2 : c.curSize + (value.length : Int) < 9223372036854775808 := hhi
  simp only at hb
  refine ⟨c0, j, ?_, ?_, h3, h4, h5, h6, h7, h8⟩
  · rw [evictLoop64_eq fuel hlo hhi]
    exact h1
  · rw [addEntry64_eq key (by omega) (by omega)]
    exact h2

/-- Witness of C18: with `maxSize = 10` and three 3-byte entries, `Add("d", 5 bytes)` evicts
the last two. -/
theorem C18_minimal_tail_eviction_witness :
    ∃ c0 j, evictLoop64 2
        { maxSize := 10, curSize := 9,
          heap := [{ Key := "a", Value := bytes 3 }, { Key := "b", Value := bytes 3 },
                   { Key := "c", Value := bytes 3 }],
          lru := [2, 1, 0], cache := [("c", 2), ("b", 1), ("a", 0)] } (bytes 5) = some (c0, j) ∧
      j = 2 :=
  have h := C18_minimal_tail_eviction
      { maxSize := 10, curSize := 9,
        heap := [{ Key := "a", Value := bytes 3 }, { Key := "b", Value := bytes 3 },
                 { Key := "c", Value := bytes 3 }],
        lru := [2, 1, 0], cache := [("c", 2), ("b", 1), ("a", 0)] }
      (WF_of_Reachable (show Reachable 10 _ from
        ⟨0, [Op.add "a" (bytes 3), Op.add "b" (bytes 3), Op.add "c" (bytes 3)], by decide⟩))
      (by decide) 2 "d" (bytes 5) (by decide)
      { maxSize := 10, curSize := 8,
        heap := [{ Key := "a", Value := bytes 3 }, { Key := "b", Value := bytes 3 },
                 { Key := "c", Value := bytes 3 }, { Key := "d", Value := bytes 5 }],
        lru := [3, 2], cache := [("d", 3), ("c", 2)] }
      (by decide)
  match h with
  | ⟨c0, j, h1, _⟩ => ⟨c0, j, h1, by
      have h2 : evictLoop64 2
          { maxSize := 10, curSize := 9,
            heap := [{ Key := "a", Value := bytes 3 }, { Key := "b", Value := bytes 3 },
                     { Key := "c", Value := bytes 3 }],
            lru := [2, 1, 0], cache := [("c", 2), ("b", 1), ("a", 0)] } (bytes 5)
          = some ({ maxSize := 10, curSize := 3,
                    heap := [{ Key := "a", Value := bytes 3 }, { Key := "b", Value := bytes 3 },
                             { Key := "c", Value := bytes 3 }],
                    lru := [2], cache := [("c", 2)] }, 2) := by decide
      rw [h2] at h1
      exact (congrArg Prod.snd (Option.some.inj h1)).symm⟩

/-- C19, as stated, fails.  From `NewCache(2^63 - 1)`, `2^63` calls of `Add("a", 1 byte)`
all return and leave one stored byte with `Size() = -2^63`: each call after the first adds 1
to the counter without storing more, and the last sum wraps. -/
theorem C19_counter_wraps_below_stored_bytes :
    ∃ c, run64 0 (NewCache 9223372036854775807)
          ((Op.add "a" (bytes 1) :: List.replicate 9223372036854775806 (Op.add "a" (bytes 1)))
            ++ [Op.add "a" (bytes 1)]) = some c ∧
      entriesSize c = 1 ∧ Size c = -9223372036854775808 ∧ Size c < entriesSize c ∧
      Size c < 0 := by
  refine ⟨readdStore (-9223372036854775808), ?_, by decide, by decide, by decide, by decide⟩
  rw [run64_append, run64_reaches_full, Option.some_bind]
  decide

/-- C19 (the counter never under-counts), amended: in every state reached from
`NewCache(maxSize)` by `Add`, `Get`, `Remove`, `RemoveOldest` and wipe operations that
return, where every `Add` of the sequence is called with `Size() + len(value)` at most the
largest `int`, `2^63 - 1`, `Size()` is at least the sum of `len(value)` over the stored
entries, hence at least 0; the two are equal when no `Add` of the sequence found its key
still present after its eviction loop. -/
theorem C19_counter_never_under_counts (maxSize : Int) (fuel : Nat) (ops : List Op) (c : Cache)
    (hrun : run64 fuel (NewCache maxSize) ops = some c)
    (hrange : noOverflow fuel (NewCache maxSize) ops = true) :
    entriesSize c ≤ Size c ∧ 0 ≤ Size c ∧
    (noReadd64 fuel (NewCache maxSize) ops = true → Size c = entriesSize c) := by
  have h0 : WF (NewCache maxSize) ∧ Lower (NewCache maxSize) ∧
      (NewCache maxSize).curSize < 9223372036854775808 :=
    ⟨WF_NewCache maxSize, by unfold Lower entriesSize NewCache; simp,
      by show (0 : Int) < 9223372036854775808; decide⟩
  obtain ⟨h1, h2⟩ := run64_eq_run h0 hrange
  rw [h1] at hrun
  rw [h2]
  exact run_counter_lower_exact maxSize fuel ops c hrun

/-- Witness of C19: after `Add("a", 4 bytes)`, `Add("b", 3 bytes)`, `Remove("a")`,
`Add("a", 2 bytes)` the counter is 5, the stored bytes. -/
theorem C19_counter_never_under_counts_witness :
    Size { maxSize := 10, curSize := 5,
           heap := [{ Key := "a", Value := bytes 4 }, { Key := "b", Value := bytes 3 },
                    { Key := "a", Value := bytes 2 }],
           lru := [2, 1], cache := [("a", 2), ("b", 1)] }
      = entriesSize
          { maxSize := 10, curSize := 5,
            heap := [{ Key := "a", Value := bytes 4 }, { Key := "b", Value := bytes 3 },
                     { Key := "a", Value := bytes 2 }],
            lru := [2, 1], cache := [("a", 2), ("b", 1)] } :=
  (C19_counter_never_under_counts 10 0
    [Op.add "a" (bytes 4), Op.add "b" (bytes 3), Op.remove "a", Op.add "a" (bytes 2)] _
    (by decide) (by decide)).2.2 (by decide)

end HttpCache
